import Mathlib

/-!
# Verification of the js-confuser transform pipeline core

Shallow embedding of the four hard passes of the obfuscator core
(Control Flow Flattening, Dispatcher, Flatten, RGF) and the transform
base class, translated from:

* `src/src/transforms/controlFlowFlattening/controlFlowFlattening.ts`
* `src/src/transforms/transform.ts`
* `src/src/transforms/rgf.ts`
* `src/unnamed/part_000` (the Dispatcher pass)
* `src/unnamed/part_001` (the Flatten pass)

Randomness: the source draws from the host's global `Math.random()`
(directly and through the helpers in `src/util/random`, which are not
part of the provided sources).  We model the random source as an
explicit stream of naturals threaded through every definition; every
theorem below quantifies over all streams, so it covers every possible
sequence of random outcomes.
-/

namespace JsConfuser

/-- The random source: an infinite stream of naturals together with a
read position.  Each primitive draw consumes one element. -/
structure RandState where
  stream : Nat → Nat
  pos : Nat

namespace RandState

/-- Consume one raw draw from the stream. -/
def draw (r : RandState) : Nat × RandState :=
  (r.stream r.pos, ⟨r.stream, r.pos + 1⟩)

/-- Modelled from the spec: a boolean coin such as the source's
`Math.random() > 0.5` test; one stream element decides it. -/
def drawBool (r : RandState) : Bool × RandState :=
  let (n, r') := draw r
  (n % 2 == 0, r')

end RandState

/-- Modelled from the spec: `getRandomInteger(min, max)` from
`src/util/random` (not among the provided sources).  The spec uses it
as "Choose `k ∈ [2,5)`", i.e. a uniform integer in the half-open
interval `[min, max)`; we realize one draw as `min + raw % (max - min)`. -/
def getRandomInteger (a b : Int) (r : RandState) : Int × RandState :=
  let (n, r') := r.draw
  (a + Int.ofNat (n % (b - a).toNat), r')

theorem getRandomInteger_mem (a b : Int) (r : RandState) (h : a < b) :
    a ≤ (getRandomInteger a b r).1 ∧ (getRandomInteger a b r).1 < b := by
  have hpos : 0 < (b - a).toNat := by omega
  have hmod : (r.stream r.pos) % (b - a).toNat < (b - a).toNat :=
    Nat.mod_lt _ hpos
  have hlt : Int.ofNat ((r.stream r.pos) % (b - a).toNat) < b - a := by
    have h1 : Int.ofNat ((r.stream r.pos) % (b - a).toNat)
        < Int.ofNat ((b - a).toNat) := Int.ofNat_lt.mpr hmod
    have h2 : Int.ofNat ((b - a).toNat) = b - a :=
      Int.toNat_of_nonneg (by omega)
    omega
  have hge : (0 : Int) ≤ Int.ofNat ((r.stream r.pos) % (b - a).toNat) :=
    Int.ofNat_nonneg _
  refine ⟨?_, ?_⟩ <;> simp only [getRandomInteger, RandState.draw] <;> omega

namespace CFF

/-!
## Control Flow Flattening: the chunk-splitting fraction (claim C9)

From `controlFlowFlattening.ts` lines 141-148:

```ts
var fraction = 0.9;
if (body.length > 20) {
  fraction /= Math.max(1.2, body.length - 18);
}
fraction = Math.min(0.1, fraction);
if (isNaN(fraction) || !isFinite(fraction)) { fraction = 0.5; }
```

JS numbers are modelled by exact rationals.  For the values reachable
here the model agrees with IEEE doubles: the only non-trivial case is
`0.9 / 9` at `body.length = 27`, whose double rounding also yields
exactly the double closest to `0.1`.  `fraction` is always a finite
rational here (`body.length - 18 ≥ 3` whenever the division runs), so
the NaN/Infinity fallback branch never fires and is not part of the
value.
-/

/-- The raw fraction before the clamp: `0.9`, divided by
`Math.max(1.2, n - 18)` when the body length `n` exceeds 20. -/
def rawFraction (n : Nat) : ℚ :=
  if n > 20 then (9/10 : ℚ) / max (6/5 : ℚ) ((n : ℚ) - 18) else 9/10

/-- The fraction actually used for chunk splitting:
`fraction = Math.min(0.1, fraction)`. -/
def fractionUsed (n : Nat) : ℚ :=
  min (1/10 : ℚ) (rawFraction n)

end CFF

/-- C9: the chunk-splitting fraction never exceeds 0.1; it equals
`min(0.1, rawFraction n)` by definition, is exactly 0.1 for every block
of at most 27 statements, and strictly below 0.1 for longer blocks. -/
theorem C9_fraction_clamped (n : Nat) :
    CFF.fractionUsed n ≤ 1/10 ∧
    CFF.fractionUsed n = min (1/10 : ℚ) (CFF.rawFraction n) ∧
    (n ≤ 27 → CFF.fractionUsed n = 1/10) ∧
    (28 ≤ n → CFF.fractionUsed n < 1/10) := by
  refine ⟨min_le_left _ _, rfl, ?_, ?_⟩
  · intro hn
    unfold CFF.fractionUsed CFF.rawFraction
    by_cases h20 : n > 20
    · simp only [if_pos h20]
      have h3 : (3 : ℚ) ≤ (n : ℚ) - 18 := by
        have : (21 : ℚ) ≤ (n : ℚ) := by exact_mod_cast h20
        linarith
      have hmax : max (6/5 : ℚ) ((n : ℚ) - 18) = (n : ℚ) - 18 := by
        apply max_eq_right; linarith
      rw [hmax]
      have hle : (n : ℚ) - 18 ≤ 9 := by
        have : (n : ℚ) ≤ 27 := by exact_mod_cast hn
        linarith
      have hpos : (0 : ℚ) < (n : ℚ) - 18 := by linarith
      have : (1/10 : ℚ) ≤ (9/10 : ℚ) / ((n : ℚ) - 18) := by
        rw [le_div_iff₀ hpos]
        linarith
      exact min_eq_left this
    · simp only [if_neg h20]
      norm_num
  · intro hn
    unfold CFF.fractionUsed CFF.rawFraction
    have h20 : n > 20 := by omega
    simp only [if_pos h20]
    have h10 : (10 : ℚ) ≤ (n : ℚ) - 18 := by
      have : (28 : ℚ) ≤ (n : ℚ) := by exact_mod_cast hn
      linarith
    have hmax : max (6/5 : ℚ) ((n : ℚ) - 18) = (n : ℚ) - 18 := by
      apply max_eq_right; linarith
    rw [hmax]
    have hpos : (0 : ℚ) < (n : ℚ) - 18 := by linarith
    have hlt : (9/10 : ℚ) / ((n : ℚ) - 18) < 1/10 := by
      rw [div_lt_iff₀ hpos]
      linarith
    calc min (1/10 : ℚ) ((9/10 : ℚ) / ((n : ℚ) - 18)) ≤ _ := min_le_right _ _
      _ < 1/10 := hlt

/-- Witness for C9 at concrete block lengths 27 and 28. -/
theorem C9_fraction_clamped_witness :
    CFF.fractionUsed 27 = 1/10 ∧ CFF.fractionUsed 28 < 1/10 :=
  ⟨(C9_fraction_clamped 27).2.2.1 (by norm_num),
   (C9_fraction_clamped 28).2.2.2 (by norm_num)⟩

/-- Helper for `shuffle`, structurally recursive on a step budget that
the wrapper instantiates with the list length. -/
def shuffleAux {α : Type} : Nat → List α → RandState → List α × RandState
  | 0, _, r => ([], r)
  | _ + 1, [], r => ([], r)
  | n + 1, a :: t, r =>
      let d := r.draw
      let i := d.1 % (a :: t).length
      let rest := shuffleAux n ((a :: t).eraseIdx i) d.2
      ((a :: t).getD i a :: rest.1, rest.2)

/-- Modelled from the spec: `shuffle(array)` from `src/util/random`
(not among the provided sources) returns the elements in a random
order; realized by repeatedly extracting a randomly chosen element. -/
def shuffle {α : Type} (l : List α) (r : RandState) :
    List α × RandState :=
  shuffleAux l.length l r

theorem getD_cons_eraseIdx_perm {α : Type} :
    ∀ (l : List α) (i : Nat) (d : α), i < l.length →
      List.Perm (l.getD i d :: l.eraseIdx i) l := by
  intro l
  induction l with
  | nil => intro i d h; simp at h
  | cons a t ih =>
      intro i d h
      cases i with
      | zero => simp [List.eraseIdx]
      | succ i =>
          have hp := ih i d (by simpa using h)
          have hstep : (a :: t).getD (i + 1) d :: (a :: t).eraseIdx (i + 1)
              = t.getD i d :: a :: t.eraseIdx i := by
            simp [List.eraseIdx]
          rw [hstep]
          exact (List.Perm.swap a (t.getD i d) (t.eraseIdx i)).trans
            (hp.cons a)

theorem shuffleAux_perm {α : Type} (n : Nat) :
    ∀ (l : List α) (r : RandState), l.length ≤ n →
      List.Perm (shuffleAux n l r).1 l := by
  induction n with
  | zero =>
      intro l r h
      cases l with
      | nil => simp [shuffleAux]
      | cons a t => simp at h
  | succ n ih =>
      intro l r h
      cases l with
      | nil => simp [shuffleAux]
      | cons a t =>
          simp only [shuffleAux]
          have hi : r.draw.1 % (a :: t).length < (a :: t).length :=
            Nat.mod_lt _ (by simp)
          have hperm := getD_cons_eraseIdx_perm (a :: t)
            (r.draw.1 % (a :: t).length) a hi
          have hlen : ((a :: t).eraseIdx
              (r.draw.1 % (a :: t).length)).length ≤ n := by
            rw [List.length_eraseIdx, if_pos hi]
            simp only [List.length_cons] at h ⊢
            omega
          have hrec := ih _ r.draw.2 hlen
          exact (hrec.cons _).trans hperm

theorem shuffle_perm {α : Type} (l : List α) (r : RandState) :
    List.Perm (shuffle l r).1 l :=
  shuffleAux_perm l.length l r le_rfl

namespace CFF

/-!
## Control Flow Flattening: the state encoding (claims C1, C2)

From `controlFlowFlattening.ts` lines 456-520 (state totals, state
variables, per-chunk component vectors), 522-601 (`numberLiteral`,
`createTransitionExpression`) and 662-681 (the goto transition).
-/

/-- The fragment of the ESTree expression language produced by the
state encoding: numeric literals, state-variable reads, `+` binary
expressions, and the `numberLiteral` conditional
`(x < stateVar ? a : b)` / `(x > stateVar ? a : b)` (the literal `x`
on the left, the state variable on the right). -/
inductive SExpr where
  | lit (n : Int)
  | svar (i : Nat)
  | add (a b : SExpr)
  | cmpCond (isLt : Bool) (a : SExpr) (i : Nat) (t f : SExpr)
deriving Repr

/-- Evaluate an expression in a machine state `s` giving each state
variable (by index) its current integer value. -/
def evalS (s : Nat → Int) : SExpr → Int
  | .lit n => n
  | .svar i => s i
  | .add a b => evalS s a + evalS s b
  | .cmpCond isLt a i t f =>
      if (if isLt then evalS s a < s i else s i < evalS s a) then evalS s t
      else evalS s f

/-- Modelled from the spec: the dispatcher's discriminant is built by
`Template(stateVars.join("+"))` — the external template parser is not
among the sources; `v0+v1+…` parses to the left-associated sum of the
state variables. -/
def discriminantExpr (k : Nat) : SExpr :=
  match k with
  | 0 => SExpr.lit 0
  | k + 1 =>
      (List.range k).foldl (fun e i => SExpr.add e (SExpr.svar (i + 1)))
        (SExpr.svar 0)

theorem evalS_foldl_add (s : Nat → Int) (l : List Nat) (e : SExpr) :
    evalS s (l.foldl (fun e i => SExpr.add e (SExpr.svar (i + 1))) e)
      = evalS s e + (l.map (fun i => s (i + 1))).sum := by
  induction l generalizing e with
  | nil => simp
  | cons a t ih =>
      simp only [List.foldl_cons, List.map_cons, List.sum_cons, ih, evalS]
      ring

/-- The discriminant `v0 + v1 + … + v(k-1)` evaluates to the sum of
the `k` state variables. -/
theorem discriminantExpr_eval (k : Nat) (s : Nat → Int) :
    evalS s (discriminantExpr (k + 1)) = ((List.range (k + 1)).map s).sum := by
  simp only [discriminantExpr, evalS_foldl_add, evalS]
  rw [List.range_succ_eq_map]
  simp [Function.comp_def]

/-- Lines 462-465: the do-while loop drawing state totals
`getRandomInteger(1, chunks.length * 15)` into the set `caseSelection`
until it holds `uniqueStatesNeeded` distinct values (JS `Set` keeps
insertion order, as does `Array.from`).  `fuel` bounds the number of
loop iterations; `none` means the draw did not finish within `fuel`. -/
def drawStates (bound : Int) (need : Nat) (acc : List Int) (r : RandState)
    (fuel : Nat) : Option (List Int × RandState) :=
  match fuel with
  | 0 => none
  | fuel + 1 =>
      let d := getRandomInteger 1 bound r
      let acc2 := if d.1 ∈ acc then acc else acc ++ [d.1]
      if acc2.length = need then some (acc2, d.2)
      else drawStates bound need acc2 d.2 fuel

theorem drawStates_spec (bound : Int) (need : Nat) (hb : 1 < bound) :
    ∀ (fuel : Nat) (acc : List Int) (r : RandState) (out : List Int)
      (r2 : RandState), acc.Nodup → (∀ x ∈ acc, 1 ≤ x ∧ x < bound) →
      drawStates bound need acc r fuel = some (out, r2) →
      out.Nodup ∧ out.length = need ∧ ∀ x ∈ out, 1 ≤ x ∧ x < bound := by
  intro fuel
  induction fuel with
  | zero => intro acc r out r2 _ _ h; simp [drawStates] at h
  | succ fuel ih =>
      intro acc r out r2 hnd hrange h
      rw [drawStates] at h
      set d := getRandomInteger 1 bound r with hd
      have hdmem : 1 ≤ d.1 ∧ d.1 < bound := getRandomInteger_mem 1 bound r hb
      by_cases hin : d.1 ∈ acc
      · simp only [if_pos hin] at h
        by_cases hlen : acc.length = need
        · simp only [if_pos hlen] at h
          cases h
          exact ⟨hnd, hlen, hrange⟩
        · simp only [if_neg hlen] at h
          exact ih acc d.2 out r2 hnd hrange h
      · simp only [if_neg hin] at h
        have hnd2 : (acc ++ [d.1]).Nodup := by
          simp [List.nodup_append, hnd, hin]
        have hrange2 : ∀ x ∈ acc ++ [d.1], 1 ≤ x ∧ x < bound := by
          intro x hx
          rcases List.mem_append.mp hx with hx | hx
          · exact hrange x hx
          · rcases List.mem_singleton.mp hx with rfl
            exact hdmem
        by_cases hlen : (acc ++ [d.1]).length = need
        · simp only [if_pos hlen] at h
          cases h
          exact ⟨hnd2, hlen, hrange2⟩
        · simp only [if_neg hlen] at h
          exact ih _ d.2 out r2 hnd2 hrange2 h

/-- Line 481: `Array(getRandomInteger(2, 5))` — the number of state
variables. -/
def stateVarCount (r : RandState) : Nat × RandState :=
  let d := getRandomInteger 2 5 r
  (d.1.toNat, d.2)

theorem stateVarCount_mem (r : RandState) :
    2 ≤ (stateVarCount r).1 ∧ (stateVarCount r).1 < 5 := by
  have h := getRandomInteger_mem 2 5 r (by norm_num)
  simp only [stateVarCount]
  omega

/-- Lines 502-504: `Array(stateVars.length).fill(0).map(() =>
getRandomInteger(-250, 250))` — the raw per-chunk component draws. -/
def drawStateValues (k : Nat) (r : RandState) : List Int × RandState :=
  match k with
  | 0 => ([], r)
  | k + 1 =>
      let d := getRandomInteger (-250) 250 r
      let rest := drawStateValues k d.2
      (d.1 :: rest.1, rest.2)

theorem drawStateValues_length (k : Nat) (r : RandState) :
    (drawStateValues k r).1.length = k := by
  induction k generalizing r with
  | zero => rfl
  | succ k ih => simp [drawStateValues, ih]

/-- `stateValues.reduce((a, b) => b + a, 0)` (line 507). -/
def getCurrentState (stateValues : List Int) : Int :=
  stateValues.foldl (fun a b => b + a) 0

theorem getCurrentState_eq_sum (l : List Int) : getCurrentState l = l.sum := by
  suffices h : ∀ x : Int, l.foldl (fun a b => b + a) x = x + l.sum by
    simpa [getCurrentState] using h 0
  induction l with
  | nil => simp
  | cons a t ih => intro x; simp [List.foldl_cons, ih]; ring

/-- Lines 499-515 (per chunk): draw the component vector, pick
`correctIndex = getRandomInteger(0, stateValues.length)` and perturb it
so the components sum to the chunk's assigned state total. -/
def chunkStateValues (k : Nat) (state : Int) (r : RandState) :
    List Int × RandState :=
  let sv := drawStateValues k r
  let ci := getRandomInteger 0 (Int.ofNat k) sv.2
  let correctIndex := ci.1.toNat
  (sv.1.set correctIndex
      (state - (getCurrentState sv.1 - sv.1.getD correctIndex 0)), ci.2)

theorem sum_set_getD (l : List Int) (i : Nat) (v : Int) (h : i < l.length) :
    (l.set i v).sum = l.sum - l.getD i 0 + v := by
  induction l generalizing i with
  | nil => simp at h
  | cons a t ih =>
      cases i with
      | zero => simp [List.set]; ring
      | succ i =>
          simp only [List.set, List.sum_cons, List.getD_cons_succ]
          rw [ih i (by simpa using h)]
          ring

theorem chunkStateValues_spec (k : Nat) (state : Int) (r : RandState)
    (hk : 0 < k) :
    (chunkStateValues k state r).1.length = k ∧
    (chunkStateValues k state r).1.sum = state := by
  have hlen := drawStateValues_length k r
  have hofnat : Int.ofNat k = (k : Int) := rfl
  have hci := getRandomInteger_mem 0 (Int.ofNat k)
    (drawStateValues k r).2 (by rw [hofnat]; exact_mod_cast hk)
  set sv := drawStateValues k r with hsv
  set ci := getRandomInteger 0 (Int.ofNat k) sv.2 with hcidef
  rw [hofnat] at hci
  have hcik : ci.1.toNat < k := by omega
  have hcilen : ci.1.toNat < sv.1.length := by omega
  constructor
  · simp [chunkStateValues, List.length_set, hlen, ← hsv, ← hcidef]
  · simp only [chunkStateValues, ← hsv, ← hcidef]
    rw [sum_set_getD _ _ _ hcilen, getCurrentState_eq_sum]
    ring

/-- Per-chunk vectors for all state totals (the
`Object.values(chunks).forEach` at line 499). -/
def buildVectors (k : Nat) (states : List Int) (r : RandState) :
    List (List Int) × RandState :=
  match states with
  | [] => ([], r)
  | st :: rest =>
      let v := chunkStateValues k st r
      let vs := buildVectors k rest v.2
      (v.1 :: vs.1, vs.2)

theorem buildVectors_spec (k : Nat) (hk : 0 < k) :
    ∀ (states : List Int) (r : RandState),
      (buildVectors k states r).1.length = states.length ∧
      ∀ i, i < states.length →
        ((buildVectors k states r).1.getD i []).length = k ∧
        ((buildVectors k states r).1.getD i []).sum = states.getD i 0 := by
  intro states
  induction states with
  | nil => intro r; simp [buildVectors]
  | cons st rest ih =>
      intro r
      have hcv := chunkStateValues_spec k st r hk
      constructor
      · simp [buildVectors, (ih _).1]
      · intro i hi
        cases i with
        | zero => simpa [buildVectors] using hcv
        | succ i =>
            have := (ih (chunkStateValues k st r).2).2 i (by simpa using hi)
            simpa [buildVectors] using this

/-- Lines 522-560: `numberLiteral(num, depth, stateValues)` — rewrite a
numeric value into an expression over the state variables that still
evaluates to `num`.  The `Math.random()` threshold tests are modelled
as boolean stream draws (at `depth = 0` the threshold `0.8/(depth*4)`
is `Infinity` in JS, so the early-exit test can never fire there, but
the draw is still consumed); `choice(["<", ">"])` is one more draw,
`true` standing for `"<"`. -/
def numberLiteral (num : Int) (depth : Nat) (stateValues : List Int)
    (r : RandState) : SExpr × RandState :=
  if h : 10 < depth then (SExpr.lit num, r)
  else
    let d0 := r.drawBool
    if 0 < depth ∧ d0.1 = true then (SExpr.lit num, d0.2)
    else
      let o := getRandomInteger 0 (Int.ofNat stateValues.length) d0.2
      let opposing := o.1.toNat
      let d1 := o.2.drawBool
      if d1.1 = true then
        let x := getRandomInteger (-250) 250 d1.2
        let op := x.2.drawBool
        let answer : Prop :=
          if op.1 = true then x.1 < stateValues.getD opposing 0
          else stateValues.getD opposing 0 < x.1
        let correct := numberLiteral num (depth + 1) stateValues op.2
        let incNum := getRandomInteger (-250) 250 correct.2
        let incorrect := numberLiteral incNum.1 (depth + 1) stateValues incNum.2
        let xExpr := numberLiteral x.1 (depth + 1) stateValues incorrect.2
        (SExpr.cmpCond op.1 xExpr.1 opposing
            (if answer then correct.1 else incorrect.1)
            (if answer then incorrect.1 else correct.1), xExpr.2)
      else
        let inner := numberLiteral (num - stateValues.getD opposing 0)
          (depth + 1) stateValues d1.2
        (SExpr.add (SExpr.svar opposing) inner.1, inner.2)
termination_by 11 - depth
decreasing_by all_goals omega

theorem numberLiteral_eval (stateValues : List Int) (s : Nat → Int)
    (hs : ∀ i, i < stateValues.length → s i = stateValues.getD i 0)
    (hk : 0 < stateValues.length) :
    ∀ (fuel : Nat) (num : Int) (depth : Nat) (r : RandState),
      11 - depth ≤ fuel →
      evalS s (numberLiteral num depth stateValues r).1 = num := by
  intro fuel
  induction fuel with
  | zero =>
      intro num depth r hle
      have hd : 10 < depth := by omega
      rw [numberLiteral]
      simp [hd, evalS]
  | succ fuel ih =>
      intro num depth r hle
      rw [numberLiteral]
      by_cases hd : 10 < depth
      · simp [hd, evalS]
      · simp only [dif_neg hd]
        by_cases hearly : 0 < depth ∧ (r.drawBool).1 = true
        · simp [hearly, evalS]
        · simp only [if_neg hearly]
          have hofnat : Int.ofNat stateValues.length
              = (stateValues.length : Int) := rfl
          set o := getRandomInteger 0 (Int.ofNat stateValues.length)
            (r.drawBool).2 with ho
          have hbound := getRandomInteger_mem 0
            (Int.ofNat stateValues.length) (r.drawBool).2
            (by rw [hofnat]; exact_mod_cast hk)
          rw [← ho] at hbound
          have hb3 : o.1 < (stateValues.length : Int) := by
            rw [← hofnat]; exact hbound.2
          have hb0 : (0 : Int) ≤ o.1 := hbound.1
          have hop : o.1.toNat < stateValues.length := by omega
          have hrec : 11 - (depth + 1) ≤ fuel := by omega
          have hsv := hs o.1.toNat hop
          by_cases hb1 : ((o.2).drawBool).1 = true
          · simp only [if_pos hb1]
            set x := getRandomInteger (-250) 250 ((o.2).drawBool).2 with hx
            set op := (x.2).drawBool with hopr
            simp only [evalS]
            rw [ih x.1 (depth + 1) _ hrec, hsv]
            by_cases hop1 : op.1 = true
            · simp only [if_pos hop1]
              by_cases hans : x.1 < stateValues.getD o.1.toNat 0
              · simp only [if_pos hans]
                exact ih num (depth + 1) _ hrec
              · simp only [if_neg hans]
                exact ih num (depth + 1) _ hrec
            · simp only [if_neg hop1]
              by_cases hans : stateValues.getD o.1.toNat 0 < x.1
              · simp only [if_pos hans]
                exact ih num (depth + 1) _ hrec
              · simp only [if_neg hans]
                exact ih num (depth + 1) _ hrec
          · simp only [if_neg hb1]
            simp only [evalS]
            rw [ih _ (depth + 1) _ hrec, hsv]
            ring

/-- An update of one state variable emitted by
`createTransitionExpression` (lines 562-601): either
`v_i += e` or the sequence `v_i *= e2, v_i -= ed`. -/
inductive UpdExpr where
  | addAssign (i : Nat) (e : SExpr)
  | mulSub (i : Nat) (factor diff : SExpr)
deriving Repr

def setVar (s : Nat → Int) (i : Nat) (v : Int) : Nat → Int :=
  fun j => if j = i then v else s j

/-- Run one state-variable update: the right-hand side of `+=`/`*=` is
evaluated in the pre-state, the right-hand side of the following `-=`
in the state where the variable has already been doubled. -/
def execUpd (s : Nat → Int) : UpdExpr → (Nat → Int)
  | .addAssign i e => setVar s i (s i + evalS s e)
  | .mulSub i factor diff =>
      let s1 := setVar s i (s i * evalS s factor)
      setVar s1 i (s1 i - evalS s1 diff)

/-- Run the updates of a transition sequence expression from left to
right. -/
def execUpds (us : List UpdExpr) (s : Nat → Int) : Nat → Int :=
  us.foldl execUpd s

/-- Lines 562-601: `createTransitionExpression(index, add,
mutatingStateValues)` — emit `v += add` or `v *= 2; v -= diff` (both
with `numberLiteral`-obfuscated constants) and record the new tracked
value in the mutated value list, which is also returned. -/
def createTransitionExpression (index : Nat) (add : Int)
    (vals : List Int) (r : RandState) : UpdExpr × List Int × RandState :=
  let newValue := vals.getD index 0 + add
  let b := r.drawBool
  if b.1 = true then
    let e := numberLiteral add 0 vals b.2
    (UpdExpr.addAssign index e.1, vals.set index newValue, e.2)
  else
    let double := vals.getD index 0 * 2
    let diff := double - newValue
    let factor := numberLiteral 2 0 vals b.2
    let vals1 := vals.set index double
    let second := numberLiteral diff 0 vals1 factor.2
    (UpdExpr.mulSub index factor.1 second.1, vals1.set index newValue,
      second.2)

/-- Lines 666-679: the per-goto transition — for each state variable
index in order, emit a `createTransitionExpression` restoring the next
chunk's component (`diff = nextStateValues[i] - mutatingStateValues[i]`
read from the live mutated list). -/
def createTransitionAux (next : List Int) :
    Nat → Nat → List Int → RandState → List UpdExpr × List Int × RandState
  | 0, _, vals, r => ([], vals, r)
  | m + 1, i, vals, r =>
      let diff := next.getD i 0 - vals.getD i 0
      let u := createTransitionExpression i diff vals r
      let rest := createTransitionAux next m (i + 1) u.2.1 u.2.2
      (u.1 :: rest.1, rest.2.1, rest.2.2)

/-- The full transition for a `GotoStatement` from the chunk with
component vector `cur` to the chunk with component vector `next`. -/
def createTransition (cur next : List Int) (r : RandState) :
    List UpdExpr × List Int × RandState :=
  createTransitionAux next cur.length 0 cur r

theorem getD_set_self (l : List Int) (i : Nat) (v : Int)
    (h : i < l.length) : (l.set i v).getD i 0 = v := by
  induction l generalizing i with
  | nil => simp at h
  | cons a t ih =>
      cases i with
      | zero => simp [List.set]
      | succ i => simpa [List.set] using ih i (by simpa using h)

theorem getD_set_ne (l : List Int) (i j : Nat) (v : Int) (h : j ≠ i) :
    (l.set i v).getD j 0 = l.getD j 0 := by
  induction l generalizing i j with
  | nil => simp [List.set]
  | cons a t ih =>
      cases i with
      | zero =>
          cases j with
          | zero => exact absurd rfl h
          | succ j => simp [List.set]
      | succ i =>
          cases j with
          | zero => simp [List.set]
          | succ j => simpa [List.set] using ih i j (by omega)

/-- One emitted component update is correct: the tracked value list
gains the new value at `index`, and executing the update (in a machine
state agreeing with the tracked values) sets exactly the state variable
at `index` to its new value. -/
theorem createTransitionExpression_correct (index : Nat) (add : Int)
    (vals : List Int) (r : RandState) (s : Nat → Int)
    (hidx : index < vals.length)
    (hs : ∀ j, j < vals.length → s j = vals.getD j 0) :
    (createTransitionExpression index add vals r).2.1
        = vals.set index (vals.getD index 0 + add) ∧
    (∀ j, execUpd s (createTransitionExpression index add vals r).1 j
        = if j = index then vals.getD index 0 + add else s j) := by
  have hk : 0 < vals.length := by omega
  refine ⟨?_, ?_⟩
  · unfold createTransitionExpression
    by_cases hb : (r.drawBool).1 = true
    · rw [if_pos hb]
    · rw [if_neg hb]
      exact List.set_set _ _ _ _
  · intro j
    unfold createTransitionExpression
    by_cases hb : (r.drawBool).1 = true
    · rw [if_pos hb]
      show execUpd s (UpdExpr.addAssign index
          (numberLiteral add 0 vals (r.drawBool).2).1) j
        = if j = index then vals.getD index 0 + add else s j
      simp only [execUpd, setVar]
      rw [numberLiteral_eval vals s hs hk 11 add 0 _ (by norm_num)]
      by_cases hj : j = index
      · rw [hj, if_pos rfl, if_pos rfl, hs index hidx]
      · rw [if_neg hj, if_neg hj]
    · rw [if_neg hb]
      show execUpd s (UpdExpr.mulSub index
          (numberLiteral 2 0 vals (r.drawBool).2).1
          (numberLiteral (vals.getD index 0 * 2 - (vals.getD index 0 + add))
            0 (vals.set index (vals.getD index 0 * 2))
            (numberLiteral 2 0 vals (r.drawBool).2).2).1) j
        = if j = index then vals.getD index 0 + add else s j
      simp only [execUpd]
      rw [numberLiteral_eval vals s hs hk 11 2 0 _ (by norm_num)]
      have hs1 : ∀ j2, j2 < (vals.set index (vals.getD index 0 * 2)).length →
          setVar s index (s index * 2) j2
            = (vals.set index (vals.getD index 0 * 2)).getD j2 0 := by
        intro j2 hj2
        by_cases hji : j2 = index
        · rw [hji]
          simp only [setVar]
          rw [getD_set_self _ _ _ hidx, hs index hidx]
          split_ifs with h1
          · rfl
          · exact absurd trivial h1
        · simp only [setVar, if_neg hji]
          rw [getD_set_ne _ _ _ _ hji]
          exact hs j2 (by simpa [List.length_set] using hj2)
      have hk1 : 0 < (vals.set index (vals.getD index 0 * 2)).length := by
        simpa [List.length_set] using hk
      have hev := numberLiteral_eval (vals.set index (vals.getD index 0 * 2))
        (setVar s index (s index * 2)) hs1 hk1 11
        (vals.getD index 0 * 2 - (vals.getD index 0 + add)) 0
        (numberLiteral 2 0 vals (r.drawBool).2).2 (by norm_num)
      rw [hev]
      by_cases hj : j = index
      · rw [hj]
        simp only [setVar]
        rw [hs index hidx]
        split_ifs with h1
        · ring
        · exact absurd trivial h1
      · simp only [setVar, if_neg hj]

/-- The transition built for indices `i, i+1, …, i+m-1` writes the
target components into the machine state and the value list, and
leaves everything else untouched. -/
theorem createTransitionAux_correct (next : List Int) :
    ∀ (m i : Nat) (vals : List Int) (r : RandState) (s : Nat → Int),
      i + m ≤ vals.length →
      (∀ j, j < vals.length → s j = vals.getD j 0) →
      (createTransitionAux next m i vals r).2.1.length = vals.length ∧
      (∀ j, j < vals.length →
        execUpds (createTransitionAux next m i vals r).1 s j
          = (createTransitionAux next m i vals r).2.1.getD j 0) ∧
      (∀ j, vals.length ≤ j →
        execUpds (createTransitionAux next m i vals r).1 s j = s j) ∧
      (∀ j, j < vals.length →
        (createTransitionAux next m i vals r).2.1.getD j 0
          = if i ≤ j ∧ j < i + m then next.getD j 0 else vals.getD j 0) := by
  intro m
  induction m with
  | zero =>
      intro i vals r s him hs
      refine ⟨rfl, ?_, ?_, ?_⟩
      · intro j hj
        simpa [createTransitionAux, execUpds] using hs j hj
      · intro j hj
        simp [createTransitionAux, execUpds]
      · intro j hj
        simp only [createTransitionAux]
        rw [if_neg (by omega)]
  | succ m ih =>
      intro i vals r s him hs
      have hidx : i < vals.length := by omega
      have hcte := createTransitionExpression_correct i
        (next.getD i 0 - vals.getD i 0) vals r s hidx hs
      set u := createTransitionExpression i
        (next.getD i 0 - vals.getD i 0) vals r with hu
      have hvals1 : u.2.1 = vals.set i (next.getD i 0) := by
        rw [hcte.1]
        congr 1
        ring
      have hlen1 : u.2.1.length = vals.length := by
        rw [hvals1, List.length_set]
      have hs1 : ∀ j, j < u.2.1.length →
          execUpd s u.1 j = u.2.1.getD j 0 := by
        intro j hj
        rw [hcte.2 j, hvals1]
        by_cases hji : j = i
        · subst hji
          rw [if_pos rfl, getD_set_self _ _ _ hidx]
          ring
        · rw [if_neg hji, getD_set_ne _ _ _ _ hji]
          exact hs j (by omega)
      have hih := ih (i + 1) u.2.1 u.2.2 (execUpd s u.1)
        (by omega) hs1
      have hstep : createTransitionAux next (m + 1) i vals r
          = (u.1 :: (createTransitionAux next m (i + 1) u.2.1 u.2.2).1,
             (createTransitionAux next m (i + 1) u.2.1 u.2.2).2.1,
             (createTransitionAux next m (i + 1) u.2.1 u.2.2).2.2) := by
        rw [createTransitionAux]
      have hexec : ∀ t : Nat → Int,
          execUpds (u.1 :: (createTransitionAux next m (i + 1) u.2.1 u.2.2).1)
            t = execUpds (createTransitionAux next m (i + 1) u.2.1 u.2.2).1
              (execUpd t u.1) := by
        intro t
        simp [execUpds]
      refine ⟨?_, ?_, ?_, ?_⟩
      · rw [hstep]
        simpa [hlen1] using hih.1
      · intro j hj
        rw [hstep]
        simp only
        rw [hexec]
        exact hih.2.1 j (by omega)
      · intro j hj
        rw [hstep]
        simp only
        rw [hexec]
        rw [hih.2.2.1 j (by omega), hcte.2 j, if_neg (by omega)]
      · intro j hj
        rw [hstep]
        simp only
        rw [hih.2.2.2 j (by omega), hvals1]
        by_cases hji : j = i
        · subst hji
          rw [if_neg (by omega), getD_set_self _ _ _ hidx,
            if_pos (by omega)]
        · rw [getD_set_ne _ _ _ _ hji]
          by_cases hrange : i + 1 ≤ j ∧ j < i + 1 + m
          · rw [if_pos hrange, if_pos (by omega)]
          · rw [if_neg hrange, if_neg (by omega)]

theorem map_getD_range (l : List Int) :
    (List.range l.length).map (fun j => l.getD j 0) = l := by
  induction l with
  | nil => simp
  | cons a t ih =>
      rw [List.length_cons, List.range_succ_eq_map, List.map_cons,
        List.map_map]
      have h2 : (List.range t.length).map
          ((fun j => (a :: t).getD j 0) ∘ Nat.succ)
          = (List.range t.length).map (fun j => t.getD j 0) :=
        List.map_congr_left (fun j hj => by simp)
      rw [List.getD_cons_zero, h2, ih]

/-- Lines 456-520 assembled: draw the distinct state totals, the state
variable count `k` and the per-chunk component vectors.  `n` is the
final number of chunks; `none` means the total-drawing loop did not
finish within `fuel` iterations. -/
def buildStateEncoding (n fuel : Nat) (r : RandState) :
    Option (List Int × Nat × List (List Int)) :=
  match drawStates ((n : Int) * 15) n [] r fuel with
  | none => none
  | some (caseStates, r1) =>
      let kd := stateVarCount r1
      let vecs := buildVectors kd.1 caseStates kd.2
      some (caseStates, kd.1, vecs.1)

end CFF

/-- C1: the state encoding.  Whenever the total-drawing loop finishes,
the `n` state totals are pairwise distinct integers in `[1, 15n]`, the
number `k` of state variables satisfies `2 ≤ k < 5`, each chunk's
component vector has `k` entries summing exactly to that chunk's state
total, and the switch discriminant (the `+`-joined state variables)
evaluates to the sum of all `k` state variables in every machine
state. -/
theorem C1_state_encoding (n fuel : Nat) (r : RandState) (hn : 1 ≤ n)
    (states : List Int) (k : Nat) (vecs : List (List Int))
    (h : CFF.buildStateEncoding n fuel r = some (states, k, vecs)) :
    states.Nodup ∧ states.length = n ∧
    (∀ st ∈ states, 1 ≤ st ∧ st ≤ (n : Int) * 15) ∧
    (2 ≤ k ∧ k < 5) ∧
    vecs.length = n ∧
    (∀ i, i < n → (vecs.getD i []).length = k ∧
      (vecs.getD i []).sum = states.getD i 0) ∧
    (∀ s : Nat → Int, CFF.evalS s (CFF.discriminantExpr k)
        = ((List.range k).map s).sum) := by
  unfold CFF.buildStateEncoding at h
  cases hds : CFF.drawStates ((n : Int) * 15) n [] r fuel with
  | none => rw [hds] at h; cases h
  | some p =>
      rw [hds] at h
      obtain ⟨cs, r1⟩ := p
      simp only [Option.some.injEq, Prod.mk.injEq] at h
      obtain ⟨h1, h2, h3⟩ := h
      rw [← h1, ← h2, ← h3]
      have hb : (1 : Int) < (n : Int) * 15 := by
        have hn2 : (1 : Int) ≤ (n : Int) := by exact_mod_cast hn
        nlinarith
      have hds2 := CFF.drawStates_spec ((n : Int) * 15) n hb fuel [] r
        cs r1 List.nodup_nil (by simp) hds
      have hkc := CFF.stateVarCount_mem r1
      have hbv := CFF.buildVectors_spec (CFF.stateVarCount r1).1
        (by omega) cs (CFF.stateVarCount r1).2
      refine ⟨hds2.1, hds2.2.1, ?_, hkc, ?_, ?_, ?_⟩
      · intro st hst
        have := hds2.2.2 st hst
        omega
      · rw [hbv.1, hds2.2.1]
      · intro i hi
        exact hbv.2 i (by omega)
      · intro s
        obtain ⟨k0, hk0⟩ : ∃ k0, (CFF.stateVarCount r1).1 = k0 + 1 :=
          ⟨(CFF.stateVarCount r1).1 - 1, by omega⟩
        rw [hk0]
        exact CFF.discriminantExpr_eval k0 s

/-- C2: the transition emitted for a `GotoStatement` from a chunk with
component vector `cur` to a chunk with component vector `next` is
correct: run in a machine state where the state variables hold `cur`,
each per-component update (whether the `+=` form or the `*= 2` /
`-=` form) sets the state variable at its index to `next`'s component,
so afterwards the variables hold exactly `next` and the discriminant
(the sum of all state variables) equals the target chunk's state
total. -/
theorem C2_transition_correct (cur next : List Int) (r : RandState)
    (s : Nat → Int) (hlen : next.length = cur.length)
    (hk : 0 < cur.length)
    (hs : ∀ j, j < cur.length → s j = cur.getD j 0) :
    (∀ j, j < cur.length →
      CFF.execUpds (CFF.createTransition cur next r).1 s j = next.getD j 0) ∧
    (∀ j, cur.length ≤ j →
      CFF.execUpds (CFF.createTransition cur next r).1 s j = s j) ∧
    CFF.evalS (CFF.execUpds (CFF.createTransition cur next r).1 s)
        (CFF.discriminantExpr cur.length) = next.sum := by
  have haux := CFF.createTransitionAux_correct next cur.length 0 cur r s
    (by omega) hs
  have hpoint : ∀ j, j < cur.length →
      CFF.execUpds (CFF.createTransition cur next r).1 s j = next.getD j 0 := by
    intro j hj
    unfold CFF.createTransition
    rw [haux.2.1 j hj, haux.2.2.2 j hj, if_pos (by omega)]
  refine ⟨hpoint, ?_, ?_⟩
  · intro j hj
    unfold CFF.createTransition
    exact haux.2.2.1 j hj
  · obtain ⟨k0, hk0⟩ : ∃ k0, cur.length = k0 + 1 :=
      ⟨cur.length - 1, by omega⟩
    rw [hk0, CFF.discriminantExpr_eval k0, ← hk0]
    have hmap : (List.range cur.length).map
        (CFF.execUpds (CFF.createTransition cur next r).1 s)
        = (List.range cur.length).map (fun j => next.getD j 0) := by
      apply List.map_congr_left
      intro j hj
      exact hpoint j (List.mem_range.mp hj)
    rw [hmap, ← hlen, CFF.map_getD_range]

/-- Witness for C2 at the concrete transition `[5, 7] → [3, 4]` over
the stream 0,1,2,…. -/
theorem C2_transition_correct_witness :
    CFF.execUpds (CFF.createTransition [5, 7] [3, 4] ⟨fun i => i, 0⟩).1
        (fun j => ([5, 7] : List Int).getD j 0) 0 = 3 ∧
    CFF.execUpds (CFF.createTransition [5, 7] [3, 4] ⟨fun i => i, 0⟩).1
        (fun j => ([5, 7] : List Int).getD j 0) 1 = 4 ∧
    CFF.evalS (CFF.execUpds (CFF.createTransition [5, 7] [3, 4]
        ⟨fun i => i, 0⟩).1 (fun j => ([5, 7] : List Int).getD j 0))
        (CFF.discriminantExpr 2) = 7 := by
  have h := C2_transition_correct [5, 7] [3, 4] ⟨fun i => i, 0⟩
    (fun j => ([5, 7] : List Int).getD j 0) (by norm_num) (by norm_num)
    (fun j hj => rfl)
  exact ⟨h.1 0 (by norm_num), h.1 1 (by norm_num), h.2.2⟩

/-- Witness for C1: a concrete run over the stream 0,1,2,… with 3
chunks succeeds and the resulting encoding has the claimed shape. -/
theorem C1_state_encoding_witness :
    CFF.buildStateEncoding 3 10 ⟨fun i => i, 0⟩
      = some ([1, 2, 3], 2, [[246, -245], [-243, 245], [242, -239]]) ∧
    ([1, 2, 3] : List Int).Nodup ∧
    (2 ≤ 2 ∧ 2 < 5) ∧
    (([[246, -245], [-243, 245], [242, -239]] : List (List Int)).getD 0 []).sum
      = ([1, 2, 3] : List Int).getD 0 0 := by
  have h : CFF.buildStateEncoding 3 10 ⟨fun i => i, 0⟩
      = some ([1, 2, 3], 2, [[246, -245], [-243, 245], [242, -239]]) := by
    decide
  have hmain := C1_state_encoding 3 10 ⟨fun i => i, 0⟩ (by norm_num)
    [1, 2, 3] 2 [[246, -245], [-243, 245], [242, -239]] h
  exact ⟨h, hmain.1, hmain.2.2.2.1, (hmain.2.2.2.2.2.1 0 (by norm_num)).2⟩

namespace CFF

/-!
## Control Flow Flattening: goto elimination (claim C3)

From `controlFlowFlattening.ts` lines 612-748: the per-chunk walk
replacing every synthetic `GotoStatement` with a state-transition
expression statement (and splicing `break switchLabel` statements), and
the final assembly of hoisted function declarations, state-variable
declaration and the labeled `while`/`switch` dispatcher.
-/

/-- The statement fragment of the AST occurring inside CFF chunk
bodies: the synthetic `GotoStatement`, `BreakStatement`, expression
statements, variable declarations, block statements, `if` with and
without `else`, loops, labeled statements, function declarations,
switch statements with their cases, and opaque goto-free leaves. -/
inductive CStmt where
  | goto (label : String)
  | breakStmt (label : String)
  | exprStmt
  | varDecl
  | leaf
  | block (body : List CStmt)
  | ifStmt (cons : CStmt)
  | ifElse (cons alt : CStmt)
  | whileLoop (body : CStmt)
  | labeled (label : String) (inner : CStmt)
  | funcDecl (body : List CStmt)
  | switchStmt (cases : List CStmt)
  | switchCase (body : List CStmt)
deriving Repr

mutual

/-- `true` iff no `GotoStatement` occurs anywhere in the statement. -/
def CStmt.gotoFree : CStmt → Bool
  | .goto _ => false
  | .breakStmt _ => true
  | .exprStmt => true
  | .varDecl => true
  | .leaf => true
  | .block b => CStmt.gotoFreeList b
  | .ifStmt c => c.gotoFree
  | .ifElse c a => c.gotoFree && a.gotoFree
  | .whileLoop b => b.gotoFree
  | .labeled _ s2 => s2.gotoFree
  | .funcDecl b => CStmt.gotoFreeList b
  | .switchStmt cs => CStmt.gotoFreeList cs
  | .switchCase b => CStmt.gotoFreeList b

def CStmt.gotoFreeList : List CStmt → Bool
  | [] => true
  | s :: t => s.gotoFree && CStmt.gotoFreeList t

end

mutual

/-- `true` iff the statement contains a `GotoStatement` not nested
below any `BlockStatement` — the `p.findIndex(isBlock) === -1` case of
the replacement walk, which decides whether the `break switchLabel` is
recorded in `breaksInsertion` (spliced at chunk level, after the
containing statement) instead of inside a nested block. -/
def CStmt.hasShallowGoto : CStmt → Bool
  | .goto _ => true
  | .breakStmt _ => false
  | .exprStmt => false
  | .varDecl => false
  | .leaf => false
  | .block _ => false
  | .ifStmt c => c.hasShallowGoto
  | .ifElse c a => c.hasShallowGoto || a.hasShallowGoto
  | .whileLoop b => b.hasShallowGoto
  | .labeled _ s2 => s2.hasShallowGoto
  | .funcDecl _ => false
  | .switchStmt cs => CStmt.hasShallowGotoList cs
  | .switchCase b => CStmt.hasShallowGotoList b

def CStmt.hasShallowGotoList : List CStmt → Bool
  | [] => false
  | s :: t => s.hasShallowGoto || CStmt.hasShallowGotoList t

end

mutual

/-- Lines 646-695: the walk over a chunk statement replacing every
`GotoStatement` with the transition expression statement
(`this.replace(o, ExpressionStatement(SequenceExpression(...)))`).
`none` models the `ok(nextStateValues, o.label)` assertion failing
because `labelToStates` has no entry for the target label.  A goto
sitting below a `BlockStatement` gets a `break switchLabel` spliced
right after the block child containing it; the position of these
breaks does not matter for goto-freeness.  The same walk also rewrites
integer literals through `numberLiteral` (lines 627-644); that
replaces expressions by expressions and can neither add nor keep a
`GotoStatement`, so it is not modelled here. -/
def replaceGotoStmt (lkup : String → Option (List Int))
    (swLabel : String) : CStmt → Option CStmt
  | .goto l =>
      match lkup l with
      | none => none
      | some _ => some .exprStmt
  | .breakStmt l => some (.breakStmt l)
  | .exprStmt => some .exprStmt
  | .varDecl => some .varDecl
  | .leaf => some .leaf
  | .block b =>
      match replaceGotoBlockBody lkup swLabel b with
      | none => none
      | some b2 => some (.block b2)
  | .ifStmt c =>
      match replaceGotoStmt lkup swLabel c with
      | none => none
      | some c2 => some (.ifStmt c2)
  | .ifElse c a =>
      match replaceGotoStmt lkup swLabel c,
          replaceGotoStmt lkup swLabel a with
      | some c2, some a2 => some (.ifElse c2 a2)
      | _, _ => none
  | .whileLoop b =>
      match replaceGotoStmt lkup swLabel b with
      | none => none
      | some b2 => some (.whileLoop b2)
  | .labeled l s2 =>
      match replaceGotoStmt lkup swLabel s2 with
      | none => none
      | some s3 => some (.labeled l s3)
  | .funcDecl b =>
      match replaceGotoBlockBody lkup swLabel b with
      | none => none
      | some b2 => some (.funcDecl b2)
  | .switchStmt cs =>
      match replaceGotoList lkup swLabel cs with
      | none => none
      | some cs2 => some (.switchStmt cs2)
  | .switchCase b =>
      match replaceGotoList lkup swLabel b with
      | none => none
      | some b2 => some (.switchCase b2)

/-- Replacement over a statement list that is not a block body
(switch cases and their consequents): no break splicing here. -/
def replaceGotoList (lkup : String → Option (List Int))
    (swLabel : String) : List CStmt → Option (List CStmt)
  | [] => some []
  | s :: t =>
      match replaceGotoStmt lkup swLabel s,
          replaceGotoList lkup swLabel t with
      | some s2, some t2 => some (s2 :: t2)
      | _, _ => none

/-- Replacement over a block body (and over the chunk body itself):
after a child containing a shallow goto, a `break switchLabel` is
spliced in. -/
def replaceGotoBlockBody (lkup : String → Option (List Int))
    (swLabel : String) : List CStmt → Option (List CStmt)
  | [] => some []
  | s :: t =>
      match replaceGotoStmt lkup swLabel s,
          replaceGotoBlockBody lkup swLabel t with
      | some s2, some t2 =>
          some (if s.hasShallowGoto then
              s2 :: CStmt.breakStmt swLabel :: t2
            else s2 :: t2)
      | _, _ => none

end

/-- A CFF chunk: a placeholder label and the statements collected for
it (line 150's `{ label: string; body: Node[] }`). -/
structure Chunk where
  label : String
  body : List CStmt

/-- Lines 612-748 assembled: every chunk except the (empty) END chunk
becomes a case whose body is the chunk body with gotos replaced and
breaks spliced; cases are shuffled; the hoisted function declarations,
the state-variable declaration and the labeled `while`/`switch`
dispatcher form the new block body. -/
def assembleCFF (chunks : List Chunk)
    (lkup : String → Option (List Int)) (swLabel endLabel : String)
    (fnDecls : List CStmt) (r : RandState) : Option (List CStmt) :=
  match (chunks.filter (fun c => c.label ≠ endLabel)).mapM
      (fun c => replaceGotoBlockBody lkup swLabel c.body) with
  | none => none
  | some caseBodies =>
      let shuffled := shuffle caseBodies r
      some (fnDecls ++
        [CStmt.varDecl,
         CStmt.whileLoop (CStmt.labeled swLabel
           (CStmt.switchStmt (shuffled.1.map CStmt.switchCase)))])

/-- Every statement returned by the goto-replacement walk is free of
`GotoStatement` nodes: the walk visits every node and replaces each
goto it finds. -/
theorem replaceGoto_gotoFree (lkup : String → Option (List Int))
    (swLabel : String) :
    ∀ s : CStmt, ∀ s2, replaceGotoStmt lkup swLabel s = some s2 →
      CStmt.gotoFree s2 = true := by
  refine fun s => replaceGotoStmt.induct lkup swLabel
    (fun s => ∀ s2, replaceGotoStmt lkup swLabel s = some s2 →
      CStmt.gotoFree s2 = true)
    (fun l => ∀ l2, replaceGotoList lkup swLabel l = some l2 →
      CStmt.gotoFreeList l2 = true)
    (fun l => ∀ l2, replaceGotoBlockBody lkup swLabel l = some l2 →
      CStmt.gotoFreeList l2 = true)
    ?_ ?_ ?_ ?_ ?_ ?_ ?_ ?_ ?_ ?_ ?_ ?_ ?_ ?_ ?_ ?_ ?_ ?_ ?_ ?_ ?_ ?_ ?_
    ?_ ?_ ?_ ?_ ?_ s
  · intro a ha s2 h
    simp [replaceGotoStmt, ha] at h
  · intro a val ha s2 h
    simp only [replaceGotoStmt, ha, Option.some.injEq] at h
    subst h
    rfl
  · intro a s2 h
    simp only [replaceGotoStmt, Option.some.injEq] at h
    subst h
    rfl
  · intro s2 h
    simp only [replaceGotoStmt, Option.some.injEq] at h
    subst h
    rfl
  · intro s2 h
    simp only [replaceGotoStmt, Option.some.injEq] at h
    subst h
    rfl
  · intro s2 h
    simp only [replaceGotoStmt, Option.some.injEq] at h
    subst h
    rfl
  · intro b hb _ s2 h
    simp [replaceGotoStmt, hb] at h
  · intro b b2 hb ih s2 h
    simp only [replaceGotoStmt, hb, Option.some.injEq] at h
    subst h
    simpa [CStmt.gotoFree] using ih b2 hb
  · intro c hc _ s2 h
    simp [replaceGotoStmt, hc] at h
  · intro c c2 hc ih s2 h
    simp only [replaceGotoStmt, hc, Option.some.injEq] at h
    subst h
    simpa [CStmt.gotoFree] using ih c2 hc
  · intro c a c2 a2 ha2 hc2 ihc iha s2 h
    simp only [replaceGotoStmt, hc2, ha2, Option.some.injEq] at h
    subst h
    simp [CStmt.gotoFree, ihc c2 hc2, iha a2 ha2]
  · intro c a hfail ihc iha s2 h
    rcases hc : replaceGotoStmt lkup swLabel c with _ | c2
    · simp [replaceGotoStmt, hc] at h
    · rcases ha : replaceGotoStmt lkup swLabel a with _ | a2
      · simp [replaceGotoStmt, hc, ha] at h
      · exact (hfail c2 a2 hc ha).elim
  · intro b hb _ s2 h
    simp [replaceGotoStmt, hb] at h
  · intro b b2 hb ih s2 h
    simp only [replaceGotoStmt, hb, Option.some.injEq] at h
    subst h
    simpa [CStmt.gotoFree] using ih b2 hb
  · intro l s1 h1 _ s2 h
    simp [replaceGotoStmt, h1] at h
  · intro l s1 s3 h1 ih s2 h
    simp only [replaceGotoStmt, h1, Option.some.injEq] at h
    subst h
    simpa [CStmt.gotoFree] using ih s3 h1
  · intro b hb _ s2 h
    simp [replaceGotoStmt, hb] at h
  · intro b b2 hb ih s2 h
    simp only [replaceGotoStmt, hb, Option.some.injEq] at h
    subst h
    simpa [CStmt.gotoFree] using ih b2 hb
  · intro cs hcs _ s2 h
    simp [replaceGotoStmt, hcs] at h
  · intro cs cs2 hcs ih s2 h
    simp only [replaceGotoStmt, hcs, Option.some.injEq] at h
    subst h
    simpa [CStmt.gotoFree] using ih cs2 hcs
  · intro b hb _ s2 h
    simp [replaceGotoStmt, hb] at h
  · intro b b2 hb ih s2 h
    simp only [replaceGotoStmt, hb, Option.some.injEq] at h
    subst h
    simpa [CStmt.gotoFree] using ih b2 hb
  · intro l2 h
    simp only [replaceGotoList, Option.some.injEq] at h
    subst h
    rfl
  · intro s1 t s2 t2 ht hs ihs iht l2 h
    simp only [replaceGotoList, hs, ht, Option.some.injEq] at h
    subst h
    simp [CStmt.gotoFreeList, ihs s2 hs, iht t2 ht]
  · intro s1 t hfail ihs iht l2 h
    rcases hs : replaceGotoStmt lkup swLabel s1 with _ | s2
    · simp [replaceGotoList, hs] at h
    · rcases ht : replaceGotoList lkup swLabel t with _ | t2
      · simp [replaceGotoList, hs, ht] at h
      · exact (hfail s2 t2 hs ht).elim
  · intro l2 h
    simp only [replaceGotoBlockBody, Option.some.injEq] at h
    subst h
    rfl
  · intro s1 t s2 t2 ht hs ihs iht l2 h
    simp only [replaceGotoBlockBody, hs, ht, Option.some.injEq] at h
    subst h
    by_cases hsh : s1.hasShallowGoto = true
    · simp [hsh, CStmt.gotoFreeList, CStmt.gotoFree, ihs s2 hs, iht t2 ht]
    · simp [hsh, CStmt.gotoFreeList, ihs s2 hs, iht t2 ht]
  · intro s1 t hfail ihs iht l2 h
    rcases hs : replaceGotoStmt lkup swLabel s1 with _ | s2
    · simp [replaceGotoBlockBody, hs] at h
    · rcases ht : replaceGotoBlockBody lkup swLabel t with _ | t2
      · simp [replaceGotoBlockBody, hs, ht] at h
      · exact (hfail s2 t2 hs ht).elim

/-- A chunk body processed by the goto-replacement walk is goto-free. -/
theorem replaceGotoBlockBody_gotoFree (lkup : String → Option (List Int))
    (swLabel : String) (l l2 : List CStmt)
    (h : replaceGotoBlockBody lkup swLabel l = some l2) :
    CStmt.gotoFreeList l2 = true := by
  have h2 : replaceGotoStmt lkup swLabel (CStmt.block l)
      = some (CStmt.block l2) := by
    simp [replaceGotoStmt, h]
  have h3 := replaceGoto_gotoFree lkup swLabel (CStmt.block l)
    (CStmt.block l2) h2
  simpa [CStmt.gotoFree] using h3

theorem gotoFreeList_append (l1 l2 : List CStmt) :
    CStmt.gotoFreeList (l1 ++ l2)
      = (CStmt.gotoFreeList l1 && CStmt.gotoFreeList l2) := by
  induction l1 with
  | nil => simp [CStmt.gotoFreeList]
  | cons s t ih => simp [CStmt.gotoFreeList, ih, Bool.and_assoc]

theorem gotoFreeList_iff_forall (l : List CStmt) :
    CStmt.gotoFreeList l = true ↔ ∀ s ∈ l, CStmt.gotoFree s = true := by
  induction l with
  | nil => simp [CStmt.gotoFreeList]
  | cons s t ih => simp [CStmt.gotoFreeList, ih]

theorem mapM_blockBody_gotoFree (lkup : String → Option (List Int))
    (swLabel : String) :
    ∀ (cs : List Chunk) (out : List (List CStmt)),
      cs.mapM (fun c => replaceGotoBlockBody lkup swLabel c.body)
        = some out →
      ∀ b ∈ out, CStmt.gotoFreeList b = true := by
  intro cs
  induction cs with
  | nil =>
      intro out h b hb
      simp only [List.mapM_nil, pure, Option.some.injEq] at h
      subst h
      simp at hb
  | cons c t ih =>
      intro out h b hb
      rw [List.mapM_cons] at h
      rcases hc : replaceGotoBlockBody lkup swLabel c.body with _ | b1
      · rw [hc] at h
        simp at h
      · rw [hc] at h
        rcases ht : t.mapM
            (fun c => replaceGotoBlockBody lkup swLabel c.body)
          with _ | out1
        · rw [ht] at h
          simp at h
        · rw [ht] at h
          simp only [Option.bind_eq_bind, Option.some_bind, pure,
            Option.some.injEq] at h
          subst h
          rcases List.mem_cons.mp hb with rfl | hb2
          · exact replaceGotoBlockBody_gotoFree lkup swLabel c.body b hc
          · exact ih out1 ht b hb2

end CFF

/-- C3: whenever the CFF transform's rewrite returns (every goto's
target label resolved in `labelToStates`), the assembled replacement
body — hoisted function declarations, the state declaration, and the
labeled `while`/`switch` dispatcher holding the shuffled, rewritten
chunk bodies — contains no `GotoStatement` anywhere, for every block,
chunking outcome and random stream. -/
theorem C3_no_goto (chunks : List CFF.Chunk)
    (lkup : String → Option (List Int)) (swLabel endLabel : String)
    (fnDecls : List CFF.CStmt) (r : RandState) (out : List CFF.CStmt)
    (hfn : CFF.CStmt.gotoFreeList fnDecls = true)
    (h : CFF.assembleCFF chunks lkup swLabel endLabel fnDecls r
      = some out) :
    CFF.CStmt.gotoFreeList out = true := by
  unfold CFF.assembleCFF at h
  rcases hm : (chunks.filter (fun c => c.label ≠ endLabel)).mapM
      (fun c => CFF.replaceGotoBlockBody lkup swLabel c.body)
    with _ | caseBodies
  · rw [hm] at h
    cases h
  · rw [hm] at h
    simp only [Option.some.injEq] at h
    subst h
    have hall := CFF.mapM_blockBody_gotoFree lkup swLabel _ _ hm
    have hperm := shuffle_perm caseBodies r
    rw [CFF.gotoFreeList_append, hfn, Bool.true_and]
    simp only [CFF.CStmt.gotoFreeList, CFF.CStmt.gotoFree,
      Bool.and_true, Bool.true_and]
    rw [CFF.gotoFreeList_iff_forall]
    intro s2 hs2
    rcases List.mem_map.mp hs2 with ⟨b, hb, rfl⟩
    have hbmem : b ∈ caseBodies := hperm.mem_iff.mp hb
    have := hall b hbmem
    simpa [CFF.CStmt.gotoFree] using this

/-- Witness for C3: a concrete three-chunk block over the stream
0,1,2,… assembles successfully and the result is goto-free. -/
theorem C3_no_goto_witness :
    CFF.assembleCFF
        [⟨"a", [CFF.CStmt.goto "b"]⟩,
         ⟨"b", [CFF.CStmt.leaf, CFF.CStmt.goto "E"]⟩,
         ⟨"E", []⟩]
        (fun _ => some [0]) "sw" "E" [] ⟨fun i => i, 0⟩
      = some [CFF.CStmt.varDecl,
          CFF.CStmt.whileLoop (CFF.CStmt.labeled "sw"
            (CFF.CStmt.switchStmt
              [CFF.CStmt.switchCase
                [CFF.CStmt.exprStmt, CFF.CStmt.breakStmt "sw"],
               CFF.CStmt.switchCase
                [CFF.CStmt.leaf, CFF.CStmt.exprStmt,
                 CFF.CStmt.breakStmt "sw"]]))] ∧
    CFF.CStmt.gotoFreeList [CFF.CStmt.varDecl,
        CFF.CStmt.whileLoop (CFF.CStmt.labeled "sw"
          (CFF.CStmt.switchStmt
            [CFF.CStmt.switchCase
              [CFF.CStmt.exprStmt, CFF.CStmt.breakStmt "sw"],
             CFF.CStmt.switchCase
              [CFF.CStmt.leaf, CFF.CStmt.exprStmt,
               CFF.CStmt.breakStmt "sw"]]))] = true := by
  refine ⟨rfl, ?_⟩
  exact C3_no_goto
    [⟨"a", [CFF.CStmt.goto "b"]⟩,
     ⟨"b", [CFF.CStmt.leaf, CFF.CStmt.goto "E"]⟩,
     ⟨"E", []⟩]
    (fun _ => some [0]) "sw" "E" [] ⟨fun i => i, 0⟩ _ rfl rfl

namespace Flatten

/-!
## Flatten (claim C4)

From the Flatten pass (`src/unnamed/part_001`): lines 249-291 rewrite
every `ReturnStatement` of the moved body into an assignment of an
object to `result.prop`; lines 363-468 build the wrapper body with the
decoy statements and the guarded real return.
-/

/-- The argument of a `ReturnStatement` being rewritten: absent (as in
the synthetic trailing `ReturnStatement()` pushed at line 249), the
bare identifier `undefined`, or any other expression (tagged). -/
inductive RetArg where
  | noArg
  | undefinedId
  | someExpr (tag : Nat)
deriving DecidableEq, Repr

/-- A property value of the object assigned to `result.prop`: an
output-variable read or the cloned original return argument. -/
inductive PropVal where
  | outputIdent (name : String)
  | retArg (tag : Nat)
deriving DecidableEq, Repr

/-- Lines 256-289: the key/value list of the object assigned to
`result.prop` — one property per output (modified) name, mapped
through its generated output key, plus the return-value key
`unshift`ed in front when the return has an argument that is not the
bare identifier `undefined`.  `output` pairs each original name with
its generated output key. -/
def returnObjectProps (output : List (String × String))
    (returnOutputName : String) (arg : RetArg) :
    List (String × PropVal) :=
  let base := output.map (fun p => (p.2, PropVal.outputIdent p.1))
  match arg with
  | .noArg => base
  | .undefinedId => base
  | .someExpr t => (returnOutputName, PropVal.retArg t) :: base

/-- A statement of the wrapper tail: one of the eight decoy templates
(by position in the source list) or the guarded real return
`if (result[prop]) return result[prop][returnOutputName]`. -/
inductive WStmt where
  | decoy (i : Nat)
  | realReturn
deriving DecidableEq, Repr

/-- Modelled from the spec: `chance(p)` from `src/util/random` (not
among the provided sources) — a `p`% Bernoulli trial; one stream
element decides it. -/
def chance (p : Nat) (r : RandState) : Bool × RandState :=
  let d := r.draw
  (d.1 % 100 < p, d.2)

/-- Line 455: `.filter(() => chance(25))` — the side-effecting filter
draws one trial per element, in order. -/
def filterByChance : List WStmt → RandState → List WStmt × RandState
  | [], r => ([], r)
  | s :: t, r =>
      let c := chance 25 r
      let rest := filterByChance t c.2
      (if c.1 then s :: rest.1 else rest.1, rest.2)

/-- The eight decoy templates of lines 365-455, by position. -/
def decoyTemplates : List WStmt :=
  (List.range 8).map WStmt.decoy

/-- Lines 455-468: filter the decoy templates by a 25% trial each,
push the real guarded return, and shuffle. -/
def buildDecoyNodes (r : RandState) : List WStmt × RandState :=
  let filtered := filterByChance decoyTemplates r
  let withReal := filtered.1 ++ [WStmt.realReturn]
  shuffle withReal filtered.2

end Flatten

/-- C4 counterexample: the claim says every rewritten return's object
includes a return-value key; but the synthetic trailing
`ReturnStatement()` has no argument, so its object holds only the
output keys — the return-value key `"rk"` is absent. -/
theorem C4_counterexample :
    ¬ ("rk" ∈ (Flatten.returnObjectProps [("x", "k1")] "rk"
        Flatten.RetArg.noArg).map Prod.fst) := by
  decide

/-- C4 (amended): every rewritten return assigns to `result.prop` an
object holding one key per output name; the return-value key (holding
the original argument) is present exactly when the return has an
argument other than the bare identifier `undefined` — the synthetic
trailing return and bare/`undefined` returns produce only the output
keys; and the guarded real return is present in the wrapper tail on
every run, regardless of the 25% per-item decoy trials and the
shuffle. -/
theorem C4_flatten_returns (output : List (String × String))
    (returnOutputName : String) (arg : Flatten.RetArg) (r : RandState) :
    (∀ p ∈ output, (p.2, Flatten.PropVal.outputIdent p.1)
        ∈ Flatten.returnObjectProps output returnOutputName arg) ∧
    (∀ t, arg = Flatten.RetArg.someExpr t →
      (returnOutputName, Flatten.PropVal.retArg t)
        ∈ Flatten.returnObjectProps output returnOutputName arg) ∧
    ((arg = Flatten.RetArg.noArg ∨ arg = Flatten.RetArg.undefinedId) →
      (Flatten.returnObjectProps output returnOutputName arg).map Prod.fst
        = output.map Prod.snd) ∧
    Flatten.WStmt.realReturn ∈ (Flatten.buildDecoyNodes r).1 := by
  refine ⟨?_, ?_, ?_, ?_⟩
  · intro p hp
    have hbase : (p.2, Flatten.PropVal.outputIdent p.1)
        ∈ output.map (fun p => (p.2, Flatten.PropVal.outputIdent p.1)) :=
      List.mem_map.mpr ⟨p, hp, rfl⟩
    cases arg <;> simp only [Flatten.returnObjectProps] <;>
      first
        | exact hbase
        | exact List.mem_cons_of_mem _ hbase
  · intro t ht
    subst ht
    simp [Flatten.returnObjectProps]
  · intro h
    rcases h with rfl | rfl <;>
      simp [Flatten.returnObjectProps]
  · unfold Flatten.buildDecoyNodes
    have hperm := shuffle_perm
      ((Flatten.filterByChance Flatten.decoyTemplates r).1
        ++ [Flatten.WStmt.realReturn])
      (Flatten.filterByChance Flatten.decoyTemplates r).2
    exact hperm.mem_iff.mpr (List.mem_append_right _ (by simp))

/-- Witness for C4 at a concrete output list, argument and stream. -/
theorem C4_flatten_returns_witness :
    ("k1", Flatten.PropVal.outputIdent "x")
      ∈ Flatten.returnObjectProps [("x", "k1")] "rk"
          (Flatten.RetArg.someExpr 7) ∧
    ("rk", Flatten.PropVal.retArg 7)
      ∈ Flatten.returnObjectProps [("x", "k1")] "rk"
          (Flatten.RetArg.someExpr 7) ∧
    Flatten.WStmt.realReturn
      ∈ (Flatten.buildDecoyNodes ⟨fun i => i, 0⟩).1 := by
  have h := C4_flatten_returns [("x", "k1")] "rk"
    (Flatten.RetArg.someExpr 7) ⟨fun i => i, 0⟩
  exact ⟨h.1 ("x", "k1") (by norm_num), h.2.1 7 rfl, h.2.2.2⟩

namespace Dispatcher

/-!
## Dispatcher (claim C5)

From the Dispatcher pass (`src/unnamed/part_000`), lines 468-585: the
rewriting of references to a dispatched function `f`.
-/

/-- An argument of the emitted dispatcher invocation: the opaque key
literal, the `expectedClearArgs` literal, the identifier `undefined`,
the `expectedNew` literal, or the `expectedGet` literal. -/
inductive DArg where
  | key
  | clearArgs
  | undef
  | newTok
  | getTok
deriving DecidableEq, Repr

/-- The emitted replacement expression shapes: the payload assignment
`payload = [args]` (tagged with the argument count), a call
`dispatcher(args)`, the member read
`new dispatcher(args).member`, or a sequence expression. -/
inductive DExpr where
  | payloadAssign (argCount : Nat)
  | callDispatcher (args : List DArg)
  | newDispatcherMember (args : List DArg)
  | seq (es : List DExpr)
deriving Repr

/-- Lines 500-555: rewrite an invoking call `f(args)` with `argCount`
arguments.  `useNew` is the `choice(["CallExpression",
"NewExpression"])` draw.  `dispatcherArgs` starts as `[key]`; with no
call arguments `expectedClearArgs` is pushed, otherwise the payload
assignment is prepared; the `NewExpression` form pads a lone key with
`undefined` and appends `expectedNew`, then reads `.member`; finally
the payload assignment (when present) wraps the call in a sequence
expression. -/
def rewriteInvocation (argCount : Nat) (useNew : Bool) : DExpr :=
  let assignmentExpressions : List DExpr :=
    if argCount ≠ 0 then [DExpr.payloadAssign argCount] else []
  let dispatcherArgs : List DArg :=
    if argCount ≠ 0 then [DArg.key] else [DArg.key, DArg.clearArgs]
  let callExpression :=
    if useNew then
      let dargs := if dispatcherArgs.length = 1 then
          dispatcherArgs ++ [DArg.undef]
        else dispatcherArgs
      DExpr.newDispatcherMember (dargs ++ [DArg.newTok])
    else DExpr.callDispatcher dispatcherArgs
  if assignmentExpressions.length ≠ 0 then
    DExpr.seq (assignmentExpressions ++ [callExpression])
  else callExpression

/-- The classification of a reference to `f`, as computed by
`getIdentifierInfo` at the rewrite site (lines 482-489, 556-573).
`isDispatcherName` marks the early return for references to the
dispatcher function itself (line 490). -/
structure IdInfo where
  isFunctionCall : Bool
  parentIsCallWithCallee : Bool
  isDispatcherName : Bool
  isDefined : Bool
  isModified : Bool
deriving DecidableEq, Repr

/-- Lines 468-585: the per-reference rewriting.  `none` means the
reference is left unchanged. -/
def rewriteSite (info : IdInfo) (argCount : Nat) (useNew : Bool) :
    Option DExpr :=
  if info.isFunctionCall && info.parentIsCallWithCallee then
    if info.isDispatcherName then none
    else some (rewriteInvocation argCount useNew)
  else
    if info.isDefined then none
    else if info.isModified then none
    else some (DExpr.callDispatcher [DArg.key, DArg.getTok])

end Dispatcher

/-- C5 counterexample: the claim says a call rewritten in
`NewExpression` form becomes `new dispatcher(key, undefined,
expectedNew).member`; but for a zero-argument call the second argument
is the `expectedClearArgs` literal, not `undefined`. -/
theorem C5_counterexample :
    Dispatcher.rewriteInvocation 0 true
      = Dispatcher.DExpr.newDispatcherMember
          [Dispatcher.DArg.key, Dispatcher.DArg.clearArgs,
           Dispatcher.DArg.newTok] ∧
    Dispatcher.rewriteInvocation 0 true
      ≠ Dispatcher.DExpr.newDispatcherMember
          [Dispatcher.DArg.key, Dispatcher.DArg.undef,
           Dispatcher.DArg.newTok] := by
  refine ⟨rfl, ?_⟩
  intro h
  injection h with h2
  simp at h2

/-- C5 (amended): a call with arguments becomes the sequence
`(payload = [args], dispatcher(key))`; a zero-argument call becomes
`dispatcher(key, expectedClearArgs)`; in `NewExpression` form, a call
with arguments becomes `(payload = [args], new dispatcher(key,
undefined, expectedNew).member)` while a zero-argument call becomes
`new dispatcher(key, expectedClearArgs, expectedNew).member`; a
non-invoking read reference becomes `dispatcher(key, expectedGet)`;
and defined or modified references (and references to the dispatcher
itself) are left unchanged. -/
theorem C5_dispatcher_rewrite (info : Dispatcher.IdInfo)
    (argCount : Nat) (useNew : Bool) :
    (argCount ≠ 0 → Dispatcher.rewriteInvocation argCount false
      = Dispatcher.DExpr.seq [Dispatcher.DExpr.payloadAssign argCount,
          Dispatcher.DExpr.callDispatcher [Dispatcher.DArg.key]]) ∧
    (Dispatcher.rewriteInvocation 0 false
      = Dispatcher.DExpr.callDispatcher
          [Dispatcher.DArg.key, Dispatcher.DArg.clearArgs]) ∧
    (argCount ≠ 0 → Dispatcher.rewriteInvocation argCount true
      = Dispatcher.DExpr.seq [Dispatcher.DExpr.payloadAssign argCount,
          Dispatcher.DExpr.newDispatcherMember
            [Dispatcher.DArg.key, Dispatcher.DArg.undef,
             Dispatcher.DArg.newTok]]) ∧
    (Dispatcher.rewriteInvocation 0 true
      = Dispatcher.DExpr.newDispatcherMember
          [Dispatcher.DArg.key, Dispatcher.DArg.clearArgs,
           Dispatcher.DArg.newTok]) ∧
    (info.isFunctionCall = true → info.parentIsCallWithCallee = true →
      info.isDispatcherName = false →
      Dispatcher.rewriteSite info argCount useNew
        = some (Dispatcher.rewriteInvocation argCount useNew)) ∧
    ((info.isFunctionCall && info.parentIsCallWithCallee) = false →
      info.isDefined = false → info.isModified = false →
      Dispatcher.rewriteSite info argCount useNew
        = some (Dispatcher.DExpr.callDispatcher
            [Dispatcher.DArg.key, Dispatcher.DArg.getTok])) ∧
    ((info.isFunctionCall && info.parentIsCallWithCallee) = false →
      (info.isDefined = true ∨ info.isModified = true) →
      Dispatcher.rewriteSite info argCount useNew = none) := by
  refine ⟨?_, rfl, ?_, rfl, ?_, ?_, ?_⟩
  · intro hc
    simp [Dispatcher.rewriteInvocation, hc]
  · intro hc
    simp [Dispatcher.rewriteInvocation, hc]
  · intro h1 h2 h3
    simp [Dispatcher.rewriteSite, h1, h2, h3]
  · intro h1 h2 h3
    simp [Dispatcher.rewriteSite, h1, h2, h3]
  · intro h1 h2
    rcases h2 with h2 | h2 <;>
      simp [Dispatcher.rewriteSite, h1, h2]

/-- Witness for C5 at a one-argument call, both forms, and the getter
and skip cases. -/
theorem C5_dispatcher_rewrite_witness :
    Dispatcher.rewriteInvocation 1 false
      = Dispatcher.DExpr.seq [Dispatcher.DExpr.payloadAssign 1,
          Dispatcher.DExpr.callDispatcher [Dispatcher.DArg.key]] ∧
    Dispatcher.rewriteInvocation 1 true
      = Dispatcher.DExpr.seq [Dispatcher.DExpr.payloadAssign 1,
          Dispatcher.DExpr.newDispatcherMember
            [Dispatcher.DArg.key, Dispatcher.DArg.undef,
             Dispatcher.DArg.newTok]] ∧
    Dispatcher.rewriteSite ⟨false, false, false, false, false⟩ 1 false
      = some (Dispatcher.DExpr.callDispatcher
          [Dispatcher.DArg.key, Dispatcher.DArg.getTok]) ∧
    Dispatcher.rewriteSite ⟨false, false, false, false, true⟩ 1 false
      = none := by
  have h0 := C5_dispatcher_rewrite ⟨false, false, false, false, false⟩
    1 false
  have h1 := C5_dispatcher_rewrite ⟨false, false, false, false, true⟩
    1 false
  exact ⟨h0.1 (by norm_num), (h0.2.2.1) (by norm_num),
    h0.2.2.2.2.2.1 rfl rfl rfl, h1.2.2.2.2.2.2 rfl (Or.inr rfl)⟩

namespace RGF

/-!
## RGF: the fixed-point name-resolution loop (claim C6)

From `src/src/transforms/rgf.ts` lines 194-246: the `while (true)`
loop over the collected candidates and the construction of the
extraction queue.
-/

/-- A collected candidate: its function name (absent for anonymous
function expressions — the JS truthiness test `name` also rejects the
impossible empty name) and its set of free-variable references (a JS
`Set`, modelled as a duplicate-free-by-use list; `delete` removes the
name). -/
structure Cand where
  name : Option String
  references : List String
deriving DecidableEq, Repr

/-- The inner `collect.forEach` at lines 203-214: erase `nm` from
every other candidate's non-empty reference set; `hit` records whether
any `delete` succeeded.  `self` is the index of the outer candidate
(the `o.location[0] !== location1[0]` identity test) and `j` the index
being visited. -/
def delHit (nm : String) (self j : Nat) (c : Cand) : Bool :=
  j ≠ self && !c.references.isEmpty && c.references.contains nm

def deleteName (nm : String) (self : Nat) :
    Nat → List Cand → List Cand × Bool
  | _, [] => ([], false)
  | j, c :: rest =>
      let tail := deleteName nm self (j + 1) rest
      match delHit nm self j c with
      | true => (⟨c.name, c.references.filter (fun x => x ≠ nm)⟩
            :: tail.1, true || tail.2)
      | false => (c :: tail.1, false || tail.2)

def emptyAndNamed (c : Cand) : Bool :=
  c.references.isEmpty && c.name.isSome

/-- One step of the outer `collect.forEach` at index `i` (lines
200-216): a candidate with an empty reference set and a name erases
its name from every other candidate. -/
def passStep (cs : List Cand) (i : Nat) : List Cand × Bool :=
  match cs[i]? with
  | none => (cs, false)
  | some c =>
      match emptyAndNamed c with
      | true => deleteName (c.name.getD "") i 0 cs
      | false => (cs, false)

/-- The outer `forEach` visits indices `i, i+1, …` sequentially on the
live list, accumulating `hit`. -/
def passAux : Nat → Nat → List Cand → List Cand × Bool
  | 0, _, cs => (cs, false)
  | m + 1, i, cs =>
      let step := passStep cs i
      let rest := passAux m (i + 1) step.1
      (rest.1, step.2 || rest.2)

/-- One full pass of the fixed-point loop body. -/
def pass (cs : List Cand) : List Cand × Bool :=
  passAux cs.length 0 cs

/-- Lines 194-226: the `while (true)` loop — run a pass; a hit resets
the consecutive-miss counter, a miss increments it; exit once `miss >
start`.  `fuel` bounds the iterations; `none` means fuel ran out. -/
def rgfLoop (fuel : Nat) (cs : List Cand) (miss start : Nat) :
    Option (List Cand) :=
  match fuel with
  | 0 => none
  | fuel + 1 =>
      let p := pass cs
      if p.2 then rgfLoop fuel p.1 0 start
      else if miss + 1 > start then some p.1
      else rgfLoop fuel p.1 (miss + 1) start

/-- Lines 228-246: the extraction queue holds exactly the candidates
whose reference sets are empty. -/
def buildQueue (cs : List Cand) : List Cand :=
  cs.filter (fun c => c.references.isEmpty)

/-- Total number of remaining references, the termination measure. -/
def totalRefs (cs : List Cand) : Nat :=
  (cs.map (fun c => c.references.length)).sum

theorem deleteName_false (nm : String) (self : Nat) :
    ∀ (cs : List Cand) (j : Nat),
      (deleteName nm self j cs).2 = false →
      (deleteName nm self j cs).1 = cs := by
  intro cs
  induction cs with
  | nil => intro j _; rfl
  | cons c rest ih =>
      intro j h
      cases hh : delHit nm self j c with
      | true =>
          simp [deleteName, hh] at h
      | false =>
          simp only [deleteName, hh, Bool.false_or] at h ⊢
          rw [ih (j + 1) h]

theorem deleteName_le (nm : String) (self : Nat) :
    ∀ (cs : List Cand) (j : Nat),
      totalRefs (deleteName nm self j cs).1 ≤ totalRefs cs := by
  intro cs
  induction cs with
  | nil => intro j; exact le_rfl
  | cons c rest ih =>
      intro j
      cases hh : delHit nm self j c with
      | true =>
          simp only [deleteName, hh, totalRefs, List.map_cons,
            List.sum_cons]
          have h1 : (c.references.filter (fun x => x ≠ nm)).length
              ≤ c.references.length := List.length_filter_le _ _
          have h2 := ih (j + 1)
          simp only [totalRefs] at h2
          omega
      | false =>
          simp only [deleteName, hh, totalRefs, List.map_cons,
            List.sum_cons]
          have h2 := ih (j + 1)
          simp only [totalRefs] at h2
          omega

theorem deleteName_lt (nm : String) (self : Nat) :
    ∀ (cs : List Cand) (j : Nat),
      (deleteName nm self j cs).2 = true →
      totalRefs (deleteName nm self j cs).1 < totalRefs cs := by
  intro cs
  induction cs with
  | nil => intro j h; simp [deleteName] at h
  | cons c rest ih =>
      intro j h
      cases hh : delHit nm self j c with
      | true =>
          simp only [deleteName, hh, totalRefs, List.map_cons,
            List.sum_cons]
          have hmem : nm ∈ c.references := by
            simp only [delHit, Bool.and_eq_true] at hh
            exact List.mem_of_elem_eq_true hh.2
          have hfilter : (c.references.filter
              (fun x => x ≠ nm)).length < c.references.length :=
            List.length_filter_lt_length_iff_exists.mpr
              ⟨nm, hmem, by simp⟩
          have h2 := deleteName_le nm self rest (j + 1)
          simp only [totalRefs] at h2
          omega
      | false =>
          simp only [deleteName, hh, Bool.false_or] at h
          simp only [deleteName, hh, totalRefs, List.map_cons,
            List.sum_cons]
          have h2 := ih (j + 1) h
          simp only [totalRefs] at h2
          omega

theorem passStep_false (cs : List Cand) (i : Nat)
    (h : (passStep cs i).2 = false) : (passStep cs i).1 = cs := by
  cases hg : cs[i]? with
  | none => simp [passStep, hg]
  | some c =>
      cases hc : emptyAndNamed c with
      | true =>
          simp only [passStep, hg, hc] at h ⊢
          exact deleteName_false _ _ _ _ h
      | false => simp [passStep, hg, hc]

theorem passStep_le (cs : List Cand) (i : Nat) :
    totalRefs (passStep cs i).1 ≤ totalRefs cs := by
  cases hg : cs[i]? with
  | none => simp [passStep, hg]
  | some c =>
      cases hc : emptyAndNamed c with
      | true =>
          simp only [passStep, hg, hc]
          exact deleteName_le _ _ _ _
      | false => simp [passStep, hg, hc]

theorem passStep_lt (cs : List Cand) (i : Nat)
    (h : (passStep cs i).2 = true) :
    totalRefs (passStep cs i).1 < totalRefs cs := by
  cases hg : cs[i]? with
  | none => simp [passStep, hg] at h
  | some c =>
      cases hc : emptyAndNamed c with
      | true =>
          simp only [passStep, hg, hc] at h ⊢
          exact deleteName_lt _ _ _ _ h
      | false => simp [passStep, hg, hc] at h

theorem passAux_false : ∀ (m i : Nat) (cs : List Cand),
    (passAux m i cs).2 = false → (passAux m i cs).1 = cs := by
  intro m
  induction m with
  | zero => intro i cs _; rfl
  | succ m ih =>
      intro i cs h
      simp only [passAux] at h ⊢
      rw [Bool.or_eq_false_iff] at h
      have hstep := passStep_false cs i h.1
      have htail := ih (i + 1) (passStep cs i).1 h.2
      rw [htail, hstep]

theorem passAux_le : ∀ (m i : Nat) (cs : List Cand),
    totalRefs (passAux m i cs).1 ≤ totalRefs cs := by
  intro m
  induction m with
  | zero => intro i cs; exact le_rfl
  | succ m ih =>
      intro i cs
      simp only [passAux]
      exact le_trans (ih (i + 1) _) (passStep_le cs i)

theorem passAux_lt : ∀ (m i : Nat) (cs : List Cand),
    (passAux m i cs).2 = true →
    totalRefs (passAux m i cs).1 < totalRefs cs := by
  intro m
  induction m with
  | zero => intro i cs h; cases h
  | succ m ih =>
      intro i cs h
      simp only [passAux, Bool.or_eq_true] at h
      simp only [passAux]
      rcases h with h | h
      · exact lt_of_le_of_lt (passAux_le m (i + 1) _)
          (passStep_lt cs i h)
      · exact lt_of_lt_of_le (ih (i + 1) _ h) (passStep_le cs i)

theorem pass_false (cs : List Cand) (h : (pass cs).2 = false) :
    (pass cs).1 = cs :=
  passAux_false cs.length 0 cs h

theorem pass_lt (cs : List Cand) (h : (pass cs).2 = true) :
    totalRefs (pass cs).1 < totalRefs cs :=
  passAux_lt cs.length 0 cs h

/-- The loop terminates within
`totalRefs cs * (start + 2) + (start + 2)` iterations. -/
theorem rgfLoop_total : ∀ (fuel : Nat) (cs : List Cand)
    (miss start : Nat),
    totalRefs cs * (start + 2) + (start + 1 - miss) < fuel →
    (rgfLoop fuel cs miss start).isSome = true := by
  intro fuel
  induction fuel with
  | zero => intro cs miss start h; omega
  | succ fuel ih =>
      intro cs miss start h
      rw [rgfLoop]
      rcases hp : (pass cs).2 with _ | _
      · simp only [hp, Bool.false_eq_true, if_false]
        by_cases hm : miss + 1 > start
        · rw [if_pos hm]
          rfl
        · rw [if_neg hm]
          apply ih
          have heq : totalRefs (pass cs).1 = totalRefs cs := by
            rw [pass_false cs hp]
          rw [heq]
          omega
      · simp only [hp, if_true]
        apply ih
        have hlt := pass_lt cs hp
        have hle : (totalRefs (pass cs).1 + 1) * (start + 2)
            ≤ totalRefs cs * (start + 2) :=
          Nat.mul_le_mul_right _ (by omega)
        have hexp : (totalRefs (pass cs).1 + 1) * (start + 2)
            = totalRefs (pass cs).1 * (start + 2) + (start + 2) := by
          ring
        omega

end RGF

/-- C6: the RGF fixed-point name-resolution loop terminates for every
finite candidate list — a concrete fuel of
`totalRefs · (2·|candidates| + 2) + 2·|candidates| + 2` suffices (the
loop exits once the consecutive-miss counter exceeds `2·|candidates|`,
and each productive pass strictly shrinks some candidate's reference
set) — and the extraction queue holds exactly the candidates with
empty reference sets. -/
theorem C6_rgf_fixed_point (cs : List RGF.Cand) :
    (∃ result : List RGF.Cand,
      RGF.rgfLoop
        (RGF.totalRefs cs * (2 * cs.length + 2) + 2 * cs.length + 2)
        cs 0 (2 * cs.length) = some result ∧
      ∀ c : RGF.Cand, c ∈ RGF.buildQueue result ↔
        (c ∈ result ∧ c.references.isEmpty = true)) := by
  have htot := RGF.rgfLoop_total
    (RGF.totalRefs cs * (2 * cs.length + 2) + 2 * cs.length + 2)
    cs 0 (2 * cs.length) (by omega)
  rcases hres : RGF.rgfLoop
      (RGF.totalRefs cs * (2 * cs.length + 2) + 2 * cs.length + 2)
      cs 0 (2 * cs.length) with _ | result
  · rw [hres] at htot
    cases htot
  · refine ⟨result, rfl, ?_⟩
    intro c
    unfold RGF.buildQueue
    rw [List.mem_filter]

namespace RGF

/-!
## RGF: reference rewriting (claim C10)

From `src/src/transforms/rgf.ts` lines 255-321: the walk replacing
identifier occurrences of extracted function names with
reference-array accesses.  `getIdentifierInfo` and
`getDefiningIdentifier` live in `src/util/identifiers` (not among the
provided sources); they are modelled as attributes of the occurrence:
whether it is a reference, a definition, the left side of an
assignment, and which defining identifier node (by id) name resolution
binds it to.
-/

/-- An identifier occurrence, with the facts the walk reads off it. -/
structure Occ where
  name : String
  isReferenced : Bool
  isDefined : Bool
  isAssignLeft : Bool
  definingId : Option Nat
deriving DecidableEq, Repr

/-- The outcome for one occurrence: left unchanged, replaced by the
plain member expression `R[i]` (the assignment-left arm), or replaced
by the `typeof R[i] === "function" && R[i][signature] ? wrapper :
R[i]` conditional. -/
inductive Rewrite where
  | unchanged
  | plainMember (i : Nat)
  | wrapped (i : Nat)
deriving DecidableEq, Repr

/-- Lines 255-321: the per-occurrence decision.  `names` maps each
extracted function name to its reference-array index, `definingNodes`
to the id node (by node id) of the extracted declaration; `reserved`
is the `reservedIdentifiers` skip. -/
def rewriteReference (names : List (String × Nat))
    (definingNodes : List (String × Nat)) (reserved : List String)
    (o : Occ) : Rewrite :=
  if o.name ∈ reserved then .unchanged
  else
    match names.lookup o.name with
    | none => .unchanged
    | some index =>
        if o.isReferenced && !o.isDefined then
          match o.definingId with
          | none => .unchanged
          | some pointingTo =>
              match definingNodes.lookup o.name with
              | none => .unchanged
              | some shouldBe =>
                  if pointingTo = shouldBe then
                    if o.isAssignLeft then .plainMember index
                    else .wrapped index
                  else .unchanged
        else .unchanged

end RGF

/-- C10: an occurrence is rewritten into a reference-array access
(plain, or wrapped in the typeof conditional) exactly when it carries
an extracted name, is a non-defining reference, and name resolution
binds it to the recorded defining identifier of the extracted
declaration; occurrences that are definitions, are not references, or
are bound to a different (shadowing) declaration are left unchanged. -/
theorem C10_rgf_reference_rewrite (names definingNodes :
    List (String × Nat)) (reserved : List String) (o : RGF.Occ) :
    (RGF.rewriteReference names definingNodes reserved o
        ≠ RGF.Rewrite.unchanged →
      o.name ∉ reserved ∧
      o.isReferenced = true ∧ o.isDefined = false ∧
      ∃ index shouldBe, names.lookup o.name = some index ∧
        definingNodes.lookup o.name = some shouldBe ∧
        o.definingId = some shouldBe ∧
        RGF.rewriteReference names definingNodes reserved o
          = (if o.isAssignLeft then RGF.Rewrite.plainMember index
             else RGF.Rewrite.wrapped index)) ∧
    (o.isDefined = true ∨ o.isReferenced = false ∨
        (∀ shouldBe, definingNodes.lookup o.name = some shouldBe →
          o.definingId ≠ some shouldBe) →
      RGF.rewriteReference names definingNodes reserved o
        = RGF.Rewrite.unchanged) := by
  constructor
  · intro hne
    by_cases hres : o.name ∈ reserved
    · exact absurd (by simp [RGF.rewriteReference, hres]) hne
    · rcases hn : names.lookup o.name with _ | index
      · exact absurd (by simp [RGF.rewriteReference, hres, hn]) hne
      · by_cases hrd : (o.isReferenced && !o.isDefined) = true
        · rcases hdef : o.definingId with _ | pointingTo
          · exact absurd
              (by simp [RGF.rewriteReference, hres, hn, hrd, hdef]) hne
          · rcases hdn : definingNodes.lookup o.name with _ | shouldBe
            · exact absurd
                (by simp [RGF.rewriteReference, hres, hn, hrd, hdef,
                  hdn]) hne
            · by_cases hps : pointingTo = shouldBe
              · subst hps
                rw [Bool.and_eq_true, Bool.not_eq_eq_eq_not,
                  Bool.not_true] at hrd
                refine ⟨hres, hrd.1, hrd.2, index, pointingTo,
                  rfl, rfl, rfl, ?_⟩
                simp [RGF.rewriteReference, hres, hn, hrd.1, hrd.2,
                  hdef, hdn]
              · exact absurd
                  (by simp [RGF.rewriteReference, hres, hn, hrd, hdef,
                    hdn, hps]) hne
        · exact absurd (by simp [RGF.rewriteReference, hres, hn, hrd])
            hne
  · intro h
    by_cases hres : o.name ∈ reserved
    · simp [RGF.rewriteReference, hres]
    · rcases hn : names.lookup o.name with _ | index
      · simp [RGF.rewriteReference, hres, hn]
      · rcases h with h | h | h
        · simp [RGF.rewriteReference, hres, hn, h]
        · simp [RGF.rewriteReference, hres, hn, h]
        · by_cases hrd : (o.isReferenced && !o.isDefined) = true
          · rcases hdef : o.definingId with _ | pointingTo
            · simp [RGF.rewriteReference, hres, hn, hrd, hdef]
            · rcases hdn : definingNodes.lookup o.name
                with _ | shouldBe
              · simp [RGF.rewriteReference, hres, hn, hrd, hdef, hdn]
              · have hps : pointingTo ≠ shouldBe := by
                  intro he
                  exact (h shouldBe hdn) (he ▸ hdef)
                simp [RGF.rewriteReference, hres, hn, hrd, hdef, hdn,
                  hps]
          · simp [RGF.rewriteReference, hres, hn, hrd]

/-- Witness for C10 at concrete occurrences: a correctly bound read is
wrapped, a shadowed occurrence is left unchanged. -/
theorem C10_rgf_reference_rewrite_witness :
    (RGF.rewriteReference [("f", 0)] [("f", 42)] []
        ⟨"f", true, false, false, some 42⟩ ≠ RGF.Rewrite.unchanged →
      ("f" ∉ ([] : List String)) ∧
      True = True ∧ False = False ∧
      ∃ index shouldBe,
        ([("f", 0)] : List (String × Nat)).lookup "f" = some index ∧
        ([("f", 42)] : List (String × Nat)).lookup "f" = some shouldBe ∧
        (some 42 : Option Nat) = some shouldBe ∧
        RGF.rewriteReference [("f", 0)] [("f", 42)] []
            ⟨"f", true, false, false, some 42⟩
          = (if false then RGF.Rewrite.plainMember index
             else RGF.Rewrite.wrapped index)) ∧
    RGF.rewriteReference [("f", 0)] [("f", 42)] []
        ⟨"f", true, false, false, some 7⟩ = RGF.Rewrite.unchanged := by
  have h1 := C10_rgf_reference_rewrite [("f", 0)] [("f", 42)] []
    ⟨"f", true, false, false, some 42⟩
  have h2 := C10_rgf_reference_rewrite [("f", 0)] [("f", 42)] []
    ⟨"f", true, false, false, some 7⟩
  refine ⟨?_, ?_⟩
  · intro hne
    have := h1.1 hne
    exact ⟨this.1, rfl, rfl, this.2.2.2⟩
  · exact h2.2 (Or.inr (Or.inr (fun shouldBe hdn hdef => by
      simp at hdn
      subst hdn
      simp at hdef)))

namespace TransformBase

/-!
## Transform base: identifier generation (claim C7)

From `src/src/transforms/transform.ts` lines 210-333
(`generateIdentifier`), with the five generation modes and the
do-while deduplication loop.
-/

/-- Modelled from the spec: the fixed `reservedKeywords` set from
`src/constants.ts` (not among the provided sources) — the JavaScript
keywords.  The theorems below depend only on it being a fixed set. -/
def reservedKeywords : List String :=
  ["break", "case", "catch", "class", "const", "continue", "debugger",
   "default", "delete", "do", "else", "export", "extends", "finally",
   "for", "function", "if", "import", "in", "instanceof", "new",
   "return", "super", "switch", "this", "throw", "try", "typeof",
   "var", "void", "while", "with", "yield", "let", "static", "await",
   "async"]

/-- Modelled from the spec: the fixed `reservedIdentifiers` set from
`src/constants.ts` (not among the provided sources). -/
def reservedIdentifiers : List String :=
  ["undefined", "null", "NaN", "Infinity", "eval", "arguments"]

/-- The five `identifierGenerator` modes of lines 231-319. -/
inductive IdMode where
  | randomized
  | hexadecimal
  | mangled
  | number
  | zeroWidth
deriving DecidableEq, Repr

/-- The obfuscator state read and written by `generateIdentifier`:
`varCount` and the per-run `generated` set. -/
structure Obf where
  varCount : Nat
  generated : List String
deriving Repr

/-- Modelled from the spec: `choice(array)` from `src/util/random`
(not among the provided sources) — a random element; one stream
element decides it. -/
def choiceChar (l : List Char) (r : RandState) : Char × RandState :=
  let d := r.draw
  (l.getD (d.1 % l.length) '_', d.2)

/-- Line 234: the first-character alphabet of randomized mode. -/
def randomizedChars : List Char :=
  "_ABCDEFGHIJKLMNOPQRSTUVWXYZabcdefghijklmnopqrstuvwxyz".toList

/-- Line 240: letters and digits for the remaining characters. -/
def combinedChars : List Char :=
  randomizedChars ++ "0123456789".toList

/-- Lines 242-246: the randomized-mode character loop
(`for (var i = 0; i < length; i++) result += choice(i == 0 ?
characters : combined)`), structurally recursive on the number of
characters still to draw (`remaining = length - i` initially
`length`). -/
def genRandomizedGo : Nat → Nat → String → RandState →
    String × RandState
  | 0, _, acc, r => (acc, r)
  | remaining + 1, i, acc, r =>
      let c := choiceChar (if i = 0 then randomizedChars
        else combinedChars) r
      genRandomizedGo remaining (i + 1) (acc.push c.1) c.2

def hexDigitChars : List Char := "0123456789abcdef".toList

/-- Lines 249-252: `genRanHex` — `size` random hex digits. -/
def genRanHex : Nat → RandState → String × RandState
  | 0, r => ("", r)
  | n + 1, r =>
      let d := r.draw
      let rest := genRanHex n d.2
      (String.mk [hexDigitChars.getD (d.1 % 16) '0'] ++ rest.1, rest.2)

/-- Modelled from the spec: `alphabeticalGenerator` from
`src/util/random` (not among the provided sources) — the
Excel-column-like generator (a, b, …, z, aa, ab, …), bijective
base 26.  The first argument is a structural step budget; the wrapper
passes `n`, which always suffices since `m / 26 < m + 1`. -/
def alphaCharsAux : Nat → Nat → List Char
  | 0, _ => []
  | _ + 1, 0 => []
  | fuel + 1, m + 1 => alphaCharsAux fuel (m / 26)
      ++ [Char.ofNat (97 + m % 26)]

def alphabeticalGenerator (n : Nat) : String :=
  String.mk (alphaCharsAux n n)

/-- Lines 257-270: the mangled-mode loop — generate, bump the counter,
skip reserved results.  `fuel` bounds the skips; returns the result
and the updated counter. -/
def mangledLoop : Nat → Nat → Option (String × Nat)
  | _, 0 => none
  | count, fuel + 1 =>
      let result := alphabeticalGenerator count
      if result ∈ reservedKeywords ∨ result ∈ reservedIdentifiers then
        mangledLoop (count + 1) fuel
      else some (result, count + 1)

/-- Lines 276-313: the zero-width mode keyword list, as written in the
source (including the duplicated entry). -/
def zeroWidthKeyWords : List String :=
  ["if", "in", "for", "let", "new", "try", "var", "case", "else",
   "null", "break", "catch", "class", "const", "super", "throw",
   "while", "yield", "delete", "export", "import", "public", "return",
   "switch", "default", "finally", "private", "continue", "debugger",
   "function", "arguments", "protected", "instanceof", "function",
   "await", "async"]

/-- Lines 315-318: a keyword followed by `count + 1` zero-width
non-joiner characters. -/
def genZeroWidth (count : Nat) (r : RandState) : String × RandState :=
  let d := r.draw
  let base := zeroWidthKeyWords.getD (d.1 % zeroWidthKeyWords.length)
    ("if")
  (base ++ String.mk (List.replicate (count + 1) (Char.ofNat 0x200C)),
    d.2)

/-- One evaluation of the `ComputeProbabilityMap` callback of lines
229-323 for a fixed mode: produce one candidate identifier.  Returns
the identifier, the updated counter (mangled mode bumps it) and the
advanced stream; `none` only when the mangled skip loop exhausts its
fuel. -/
def identifierBody (mode : IdMode) (len count : Nat) (r : RandState) :
    Option (String × Nat × RandState) :=
  match mode with
  | .randomized =>
      let p := genRandomizedGo len 0 ("") r
      some (p.1, count, p.2)
  | .hexadecimal =>
      let p := genRanHex len r
      some (("_0x") ++ p.1.toUpper, count, p.2)
  | .mangled =>
      match mangledLoop count
          (reservedKeywords.length + reservedIdentifiers.length + 1)
        with
      | none => none
      | some q => some (q.1, q.2, r)
  | .number => some (("var_") ++ toString count, count, r)
  | .zeroWidth =>
      let p := genZeroWidth count r
      some (p.1, count, p.2)

/-- A concrete random stream under which randomized mode spells the
keyword `return`: the first draw picks length 6, the next six pick the
characters `r`, `e`, `t`, `u`, `r`, `n` from the alphabets of lines
234-240. -/
def returnKeywordStream : Nat → Nat :=
  fun i => [0, 44, 31, 46, 47, 44, 40].getD i 0

/-- Lines 228-324: the do-while loop — draw candidates until one is
not in the dedup set.  `fuel` bounds the retries. -/
def genLoop (mode : IdMode) (len : Nat) (set0 : List String) :
    Nat → RandState → Nat → Option (String × Nat × RandState)
  | _, _, 0 => none
  | count, r, fuel + 1 =>
      match identifierBody mode len count r with
      | none => none
      | some (id0, count2, r2) =>
          if id0 ∈ set0 then genLoop mode len set0 count2 r2 fuel
          else some (id0, count2, r2)

/-- Lines 215-217: a `length` of `-1` draws `getRandomInteger(6, 8)`. -/
def pickLength (length : Int) (r : RandState) : Nat × RandState :=
  if length = -1 then
    let d := getRandomInteger 6 8 r
    (d.1.toNat, d.2)
  else (length.toNat, r)

/-- Lines 210-333: `generateIdentifier(length, count, overrideMode)`.
With `count = -1` (the default path) the obfuscator's `varCount` is
bumped, the dedup set is the obfuscator-wide `generated` set and the
result is added to it; with an explicit `count` the dedup set is a
fresh local set and the obfuscator state is untouched. -/
def generateIdentifier (length count : Int) (mode : IdMode)
    (obf : Obf) (r : RandState) (fuel : Nat) :
    Option (String × Obf × RandState) :=
  let lp := pickLength length r
  if count = -1 then
    let newCount := obf.varCount + 1
    match genLoop mode lp.1 obf.generated newCount lp.2 fuel with
    | none => none
    | some (id0, _, r2) =>
        some (id0, ⟨newCount, id0 :: obf.generated⟩, r2)
  else
    match genLoop mode lp.1 [] count.toNat lp.2 fuel with
    | none => none
    | some (id0, _, r2) => some (id0, obf, r2)

theorem genLoop_not_mem (mode : IdMode) (len : Nat)
    (set0 : List String) :
    ∀ (fuel count : Nat) (r : RandState) (id0 : String) (count2 : Nat)
      (r2 : RandState),
      genLoop mode len set0 count r fuel = some (id0, count2, r2) →
      id0 ∉ set0 := by
  intro fuel
  induction fuel with
  | zero =>
      intro count r id0 count2 r2 h
      simp [genLoop] at h
  | succ fuel ih =>
      intro count r id0 count2 r2 h
      rw [genLoop] at h
      rcases hb : identifierBody mode len count r with _ | p
      · rw [hb] at h
        cases h
      · rw [hb] at h
        obtain ⟨idc, countc, rc⟩ := p
        have h2 : (if idc ∈ set0 then
              genLoop mode len set0 countc rc fuel
            else some (idc, countc, rc)) = some (id0, count2, r2) := h
        by_cases hmem : idc ∈ set0
        · rw [if_pos hmem] at h2
          exact ih countc rc id0 count2 r2 h2
        · rw [if_neg hmem] at h2
          simp only [Option.some.injEq, Prod.mk.injEq] at h2
          obtain ⟨rfl, -, -⟩ := h2
          exact hmem

theorem mangledLoop_not_reserved :
    ∀ (fuel count : Nat) (s : String) (count2 : Nat),
      mangledLoop count fuel = some (s, count2) →
      s ∉ reservedKeywords ∧ s ∉ reservedIdentifiers := by
  intro fuel
  induction fuel with
  | zero =>
      intro count s count2 h
      simp [mangledLoop] at h
  | succ fuel ih =>
      intro count s count2 h
      rw [mangledLoop] at h
      by_cases hres : alphabeticalGenerator count ∈ reservedKeywords ∨
          alphabeticalGenerator count ∈ reservedIdentifiers
      · rw [if_pos hres] at h
        exact ih (count + 1) s count2 h
      · rw [if_neg hres] at h
        simp only [Option.some.injEq, Prod.mk.injEq] at h
        obtain ⟨rfl, -⟩ := h
        exact not_or.mp hres

end TransformBase

/-- C7 counterexample against both conjuncts of the claim.
Distinctness: two consecutive calls with an explicit `count` (the
path used by `getGenerator`) in `number` mode deduplicate only
against a fresh local set and both return `var_5`.  Reserved-freeness:
a default call in `randomized` mode — which, unlike `mangled`, never
checks the reserved sets — returns the keyword `return` under the
exhibited stream, and `return ∈ reservedKeywords`. -/
theorem C7_counterexample :
    ((TransformBase.generateIdentifier (-1) 5
        TransformBase.IdMode.number ⟨0, []⟩ ⟨fun _ => 0, 0⟩ 2).bind
      (fun t =>
        (TransformBase.generateIdentifier (-1) 5
            TransformBase.IdMode.number t.2.1 t.2.2 2).map
          (fun u => (t.1, u.1))))
      = some (("var_5"), ("var_5")) ∧
    (TransformBase.generateIdentifier (-1) (-1)
        TransformBase.IdMode.randomized ⟨0, []⟩
        ⟨TransformBase.returnKeywordStream, 0⟩ 1).map (fun t => t.1)
      = some (("return")) ∧
    ("return") ∈ TransformBase.reservedKeywords := by
  refine ⟨rfl, ?_, by decide⟩
  rfl

/-- C7 (amended): an identifier produced by a default call
(`count = -1`) is distinct from every identifier previously returned
by default calls in the same run — the obfuscator-wide `generated` set
is consulted and extended; mangled mode never returns a member of
`reservedKeywords ∪ reservedIdentifiers`; but the other modes are not
checked against the reserved sets — randomized mode can draw the
keyword `return` — and calls with an explicit count deduplicate only
against a fresh local set. -/
theorem C7_identifier_generation (length : Int)
    (mode : TransformBase.IdMode) (obf : TransformBase.Obf)
    (r : RandState) (fuel : Nat) (id0 : String)
    (obf2 : TransformBase.Obf) (r2 : RandState)
    (h : TransformBase.generateIdentifier length (-1) mode obf r fuel
      = some (id0, obf2, r2)) :
    (id0 ∉ obf.generated ∧ obf2.generated = id0 :: obf.generated ∧
      obf2.varCount = obf.varCount + 1) ∧
    (∀ (fuelM count : Nat) (s : String) (count2 : Nat),
      TransformBase.mangledLoop count fuelM = some (s, count2) →
      s ∉ TransformBase.reservedKeywords ∧
      s ∉ TransformBase.reservedIdentifiers) ∧
    (∃ r0 : RandState,
      (TransformBase.generateIdentifier (-1) (-1)
          TransformBase.IdMode.randomized ⟨0, []⟩ r0 1).map
        (fun t => t.1) = some (("return")) ∧
      ("return") ∈ TransformBase.reservedKeywords) := by
  refine ⟨?_, fun fuelM count s count2 hm =>
    TransformBase.mangledLoop_not_reserved fuelM count s count2 hm,
    ⟨⟨TransformBase.returnKeywordStream, 0⟩, rfl, by decide⟩⟩
  unfold TransformBase.generateIdentifier at h
  rw [if_pos rfl] at h
  have h4 : (match TransformBase.genLoop mode
        (TransformBase.pickLength length r).1 obf.generated
        (obf.varCount + 1) (TransformBase.pickLength length r).2 fuel
      with
      | none => none
      | some (id3, _, r3) => some (id3,
          (⟨obf.varCount + 1, id3 :: obf.generated⟩ :
            TransformBase.Obf), r3)) = some (id0, obf2, r2) := h
  rcases hgl : TransformBase.genLoop mode
      (TransformBase.pickLength length r).1 obf.generated
      (obf.varCount + 1) (TransformBase.pickLength length r).2 fuel
    with _ | p
  · rw [hgl] at h4
    have h5 : (none : Option (String × TransformBase.Obf × RandState))
        = some (id0, obf2, r2) := h4
    cases h5
  · rw [hgl] at h4
    obtain ⟨idc, countc, rc⟩ := p
    have h5 : (some (idc, (⟨obf.varCount + 1, idc :: obf.generated⟩ :
        TransformBase.Obf), rc) :
        Option (String × TransformBase.Obf × RandState))
        = some (id0, obf2, r2) := h4
    simp only [Option.some.injEq, Prod.mk.injEq] at h5
    obtain ⟨h1, h2, h3⟩ := h5
    have hnm := TransformBase.genLoop_not_mem mode
      (TransformBase.pickLength length r).1 obf.generated fuel
      (obf.varCount + 1) (TransformBase.pickLength length r).2
      idc countc rc hgl
    rw [← h1, ← h2]
    exact ⟨hnm, rfl, rfl⟩

/-- Witness for C7: a concrete default call over the stream of zeros
and a concrete mangled draw. -/
theorem C7_identifier_generation_witness :
    (("var_1") ∉ ([] : List String)) ∧
    (("a") ∉ TransformBase.reservedKeywords ∧
      ("a") ∉ TransformBase.reservedIdentifiers) := by
  have hrun : TransformBase.generateIdentifier (-1) (-1)
      TransformBase.IdMode.number ⟨0, []⟩ ⟨fun _ => 0, 0⟩ 2
      = some (("var_1"), ⟨1, [("var_1")]⟩, ⟨fun _ => 0, 1⟩) := by
    rfl
  have h := C7_identifier_generation (-1) TransformBase.IdMode.number
    ⟨0, []⟩ ⟨fun _ => 0, 0⟩ 2 ("var_1") ⟨1, [("var_1")]⟩
    ⟨fun _ => 0, 1⟩ hrun
  have hm : TransformBase.mangledLoop 1 5 = some (("a"), 2) := by rfl
  exact ⟨h.1.1, h.2.1 5 1 ("a") 2 hm⟩

end JsConfuser
